import Mathlib

/-!
# Verification of the mini-shell undo/trash/history subsystem

Shallow embedding of `src/shell.py` (class `Shell` and `CmdHandlers`).

Modelling conventions:
* A filesystem path is a list of name components (`Path`).  Command
  arguments that denote paths are taken as already-tokenized relative
  component lists without `.`/`..` segments (the only `..` the source
  treats specially is `rm`'s literal `".."` operand, which is kept as the
  one-component path `[".."]`).  `pathlib`'s `/` on such arguments is list
  append.
* The filesystem is a rose tree (`FSTree`): files carry `Option String`
  content where `none` models bytes that `read_text(encoding="utf-8")`
  cannot decode (reading such a file raises, copying or moving it does
  not).
* `shutil.move`, `shutil.copytree`, `shutil.copy2`, `shutil.rmtree`,
  `os.remove` are modelled by total functions returning `Except` with the
  same success/failure conditions on the modelled path domain.
  (`copytree`'s `makedirs` of missing intermediate destination parents is
  not modelled; destinations whose parent is missing fail, as `copy2`
  does.)
* The history file is the list of its lines; the counter file is the
  parsed integer it holds (`none` = absent/unwritten).
-/

namespace MiniShell

abbrev Path := List String

inductive FSTree where
  | file (content : Option String)
  | dir (children : List (String × FSTree))
deriving Inhabited

/-- First child with the given name (directory entry lookup). -/
def findChild : List (String × FSTree) → String → Option FSTree
  | [], _ => none
  | c :: cs, n => if c.1 = n then some c.2 else findChild cs n

/-- Replace the first child with the given name, or append a new entry. -/
def setChild : List (String × FSTree) → String → FSTree → List (String × FSTree)
  | [], n, t => [(n, t)]
  | c :: cs, n, t => if c.1 = n then (n, t) :: cs else c :: setChild cs n t

/-- Remove the first child with the given name. -/
def eraseChild : List (String × FSTree) → String → List (String × FSTree)
  | [], _ => []
  | c :: cs, n => if c.1 = n then cs else c :: eraseChild cs n

/-- Resolve a path to the subtree it denotes (`pathlib` existence/`stat`). -/
def lookup : FSTree → Path → Option FSTree
  | t, [] => some t
  | .file _, _ :: _ => none
  | .dir cs, n :: p =>
    match findChild cs n with
    | some c => lookup c p
    | none => none

/-- Remove the entry at a path (no-op when the path does not resolve). -/
def erase : FSTree → Path → FSTree
  | t, [] => t
  | .file c, _ :: _ => .file c
  | .dir cs, [n] => .dir (eraseChild cs n)
  | .dir cs, n :: p₂ :: p =>
    match findChild cs n with
    | some c => .dir (setChild cs n (erase c (p₂ :: p)))
    | none => .dir cs

/-- Create/overwrite the entry at a path; `none` when an intermediate
component is missing or not a directory (the failure of `os.rename` /
`open` when the destination parent does not exist). -/
def insertAt : FSTree → Path → FSTree → Option FSTree
  | _, [], _ => none
  | .file _, _ :: _, _ => none
  | .dir cs, [n], sub => some (.dir (setChild cs n sub))
  | .dir cs, n :: p₂ :: p, sub =>
    match findChild cs n with
    | some c => (insertAt c (p₂ :: p) sub).map (fun c2 => .dir (setChild cs n c2))
    | none => none

/-- `path.name`: the final component. -/
def pname (p : Path) : String := p.getLastD ""

def isDirT : FSTree → Bool
  | .dir _ => true
  | .file _ => false

/-- `os.rename(src, dst)` on one storage device: atomic; fails when the
source is missing or the destination parent is missing; overwrites an
existing destination entry. -/
def fsRename (fs : FSTree) (src dst : Path) : Except String FSTree :=
  match lookup fs src with
  | none => .error "rename: no such file or directory"
  | some sub =>
    match insertAt (erase fs src) dst sub with
    | some fs2 => .ok fs2
    | none => .error "rename: destination parent missing"

/-- `shutil.move(src, dst)`: when `dst` is an existing directory the
source moves *into* it under its base name, failing if that name is
taken; otherwise a plain rename. -/
def fsMove (fs : FSTree) (src dst : Path) : Except String FSTree :=
  match lookup fs dst with
  | some (.dir _) =>
    let real := dst ++ [pname src]
    if (lookup fs real).isSome then .error "Destination path already exists"
    else fsRename fs src real
  | _ => fsRename fs src dst

/-- `shutil.rmtree`: removes a directory tree; fails on files and missing
paths. -/
def fsRmtree (fs : FSTree) (p : Path) : Except String FSTree :=
  match lookup fs p with
  | some (.dir _) => .ok (erase fs p)
  | some (.file _) => .error "rmtree: not a directory"
  | none => .error "rmtree: no such file or directory"

/-- `os.remove`: removes a file; fails on directories and missing paths. -/
def fsRemove (fs : FSTree) (p : Path) : Except String FSTree :=
  match lookup fs p with
  | some (.file _) => .ok (erase fs p)
  | some (.dir _) => .error "remove: is a directory"
  | none => .error "remove: no such file or directory"

/-! ## Python `int()` parsing and counter recovery (`Shell.__init__`) -/

/-- `str.strip()` on characters (ASCII whitespace). -/
def trimL (l : List Char) : List Char :=
  ((l.dropWhile Char.isWhitespace).reverse.dropWhile Char.isWhitespace).reverse

/-- `str.lower()`. -/
def strLower (s : String) : String := ⟨s.data.map Char.toLower⟩

/-- `line.split('.')[0]`: the prefix before the first `'.'`. -/
def beforeDot (l : List Char) : List Char := l.takeWhile (fun c => c != '.')

/-- Digits of a decimal literal; `none` when empty or a non-digit occurs. -/
def digitsToNat : List Char → Option Nat
  | [] => none
  | l =>
    if l.all (·.isDigit) then
      some (l.foldl (fun a c => 10 * a + (c.toNat - '0'.toNat)) 0)
    else none

/-- `int(s)` for a decimal string: surrounding whitespace stripped, one
optional sign, then digits; `none` models the `ValueError` branch.
(Python additionally allows digit-group underscores and non-ASCII digits;
those are outside the modelled input domain.) -/
def pyInt (s : String) : Option Int :=
  match trimL s.data with
  | '-' :: rest => (digitsToNat rest).map (fun n => -(n : Int))
  | '+' :: rest => (digitsToNat rest).map (fun n => (n : Int))
  | l => (digitsToNat l).map (fun n => (n : Int))

/-- The numbers recovered from the history lines: for each line with
non-blank content, `int(line.split('.')[0].strip())`, skipping lines
where the parse fails. -/
def histNums (lines : List String) : List Int :=
  lines.filterMap (fun line =>
    if trimL line.data = [] then none
    else pyInt ⟨beforeDot line.data⟩)

/-- Counter recovery from `Shell.__init__` (lines 20-43): start at 0; if
the history file exists and some line parses, take the maximum parsed
number; if the counter file exists and parses, take the maximum of that
and the current value.  `none` arguments model an absent (or unreadable)
file. -/
def recover (histLines : Option (List String)) (counterTxt : Option String) : Int :=
  let g0 : Int := 0
  let g1 : Int :=
    match histLines with
    | some lines =>
      match (histNums lines).max? with
      | some m => m
      | none => g0
    | none => g0
  match counterTxt.bind pyInt with
  | some c => max g1 c
  | none => g1

/-! ## Trash staging name search (`CmdHandlers.rm`, lines 228-233) -/

/-- The candidate names tried for a staged entry: the base name itself,
then `base_1`, `base_2`, …  -/
def candName (base : String) (k : Nat) : String :=
  if k = 0 then base else base ++ "_" ++ toString k

/-- The `while trash_path.exists()` search: `cur` is the current
candidate, `i` the next suffix to try.  Fuel-indexed so the function is
total; the shell invokes it with enough fuel for the search to succeed
(the occupied names in a finite trash directory cannot cover every
candidate). -/
def stagedSearch (occ : String → Bool) (base : String) : String → Nat → Nat → Option String
  | _, _, 0 => none
  | cur, i, fuel + 1 =>
    if occ cur then stagedSearch occ base (base ++ "_" ++ toString i) (i + 1) fuel
    else some cur

/-- Collision-safe staged name: first-fit over `base, base_1, base_2, …`. -/
def stagedName (occ : String → Bool) (base : String) (fuel : Nat) : Option String :=
  stagedSearch occ base base 1 fuel

/-! ## Session state and command handlers -/

/-- The single-slot undo register: the closures stored in
`shell.last_undo`.  `mv a b` is `partial(shutil.move, a, b)`;
`rmTree`/`rmFile` are `partial(shutil.rmtree, p)` / `partial(os.remove, p)`
registered by `cp`. -/
inductive UndoAct where
  | mv (src dst : Path)
  | rmTree (p : Path)
  | rmFile (p : Path)

/-- Session state of `Shell`: working directory, home, trash directory,
the filesystem, the lines of the history file, the parsed contents of the
counter file, the in-memory counter, and the undo slot. -/
structure Sh where
  cwd : Path
  home : Path
  trashDir : Path
  fs : FSTree
  hist : List String
  counterFile : Option Int
  counter : Int
  lastUndo : Option UndoAct

/-- Handler result: `.ok` with the updated state, or `.error` carrying the
raised message *and* the state as mutated up to the raise (Python
exceptions do not roll back earlier side effects of the handler). -/
abbrev HRes := Except (Sh × String) Sh

/-- `CmdHandlers.ls` (output elided; the only failure is a missing
target). The `-l`/`-1` flags only affect printing. -/
def lsH (sh : Sh) (target : Option Path) : HRes :=
  let t := match target with
    | some p => sh.cwd ++ p
    | none => sh.cwd
  if (lookup sh.fs t).isSome then .ok sh
  else .error (sh, "No such file or directory")

/-- `cd`'s argument forms: `/`, `~`, `..`, or a relative path. -/
inductive CdArg where
  | slash
  | tilde
  | dotdot
  | rel (p : Path)

/-- `CmdHandlers.cd`. -/
def cdH (sh : Sh) (arg : Option CdArg) : HRes :=
  let nd : Path :=
    match arg with
    | none => sh.home
    | some .slash => []
    | some .tilde => sh.home
    | some .dotdot => sh.cwd.dropLast
    | some (.rel p) => sh.cwd ++ p
  match lookup sh.fs nd with
  | some (.dir _) => .ok { sh with cwd := nd }
  | _ => .error (sh, "No such directory")

/-- `CmdHandlers.cat` (output elided).  `read_text` on undecodable bytes
raises, which the dispatcher reports like any other failure. -/
def catH (sh : Sh) (args : List Path) : HRes :=
  match args with
  | [] => .error (sh, "cat: missing file operand")
  | a :: _ =>
    match lookup sh.fs (sh.cwd ++ a) with
    | some (.file (some _)) => .ok sh
    | some (.file none) => .error (sh, "cat: cannot decode file")
    | _ => .error (sh, "cat: No such file or directory")

/-- `CmdHandlers.cp`.  The `-r` flag is pre-split from the operand list. -/
def cpH (sh : Sh) (recursive : Bool) (args : List Path) : HRes :=
  match args with
  | [a0, a1] =>
    let src := sh.cwd ++ a0
    let dst := sh.cwd ++ a1
    match lookup sh.fs src with
    | none => .error (sh, "cp: cannot stat: No such file or directory")
    | some sub =>
      if (lookup sh.fs dst).isSome then .error (sh, "cp: destination exists")
      else if isDirT sub && !recursive then .error (sh, "cp: -r not specified; omitting directory")
      else if recursive && !(isDirT sub) then .error (sh, "cp: NotADirectoryError")
      else
        match insertAt sh.fs dst sub with
        | some fs2 =>
          let act := match lookup fs2 dst with
            | some (.dir _) => UndoAct.rmTree dst
            | _ => UndoAct.rmFile dst
          .ok { sh with fs := fs2, lastUndo := some act }
        | none => .error (sh, "cp: destination parent missing")
  | _ => .error (sh, "cp: missing source or destination")

/-- `CmdHandlers.mv`. -/
def mvH (sh : Sh) (args : List Path) : HRes :=
  match args with
  | [a0, a1] =>
    let src := sh.cwd ++ a0
    let dst := sh.cwd ++ a1
    if (lookup sh.fs src).isNone then .error (sh, "mv: cannot stat: No such file or directory")
    else
      let finalDst : Path :=
        match lookup sh.fs dst with
        | some (.dir _) => dst ++ [pname src]
        | _ => dst
      if (lookup sh.fs finalDst).isSome then .error (sh, "mv: destination exists")
      else
        match fsMove sh.fs src finalDst with
        | .ok fs2 => .ok { sh with fs := fs2, lastUndo := some (.mv finalDst src) }
        | .error e => .error (sh, e)
  | _ => .error (sh, "mv: missing source or destination")

/-- Number of entries in the trash directory, used to bound the staging
name search. -/
def trashCount (sh : Sh) : Nat :=
  match lookup sh.fs sh.trashDir with
  | some (.dir cs) => cs.length
  | _ => 0

/-- `rm`'s staging of one operand into the trash (lines 228-235): find a
collision-free name, move the entry there, register the inverse move. -/
def stagePath (sh : Sh) (path : Path) : Except (Sh × String) Sh :=
  match stagedName (fun n => (lookup sh.fs (sh.trashDir ++ [n])).isSome)
      (pname path) (trashCount sh + 1) with
  | none => .error (sh, "rm: trash name search exhausted")
  | some nm =>
    let trashPath := sh.trashDir ++ [nm]
    match fsMove sh.fs path trashPath with
    | .error e => .error (sh, e)
    | .ok fs2 => .ok { sh with fs := fs2, lastUndo := some (.mv trashPath path) }

/-- The loop body of `CmdHandlers.rm` over its operands, threading the
mutated state; `answers` is the stream of replies `input()` returns for
the recursive-removal confirmation prompt (an empty stream raises
`EOFError`, caught by the dispatcher like other errors). -/
def rmLoop (recursive : Bool) : Sh → List Path → List String → HRes
  | sh, [], _ => .ok sh
  | sh, arg :: rest, answers =>
    if arg = [".."] then .error (sh, "rm: cannot remove parent directory")
    else
      let path := sh.cwd ++ arg
      match lookup sh.fs path with
      | none => .error (sh, "rm: cannot remove: No such file or directory")
      | some node =>
        if path = ([] : Path) then .error (sh, "rm: cannot remove root directory")
        else if isDirT node && !recursive then .error (sh, "rm: cannot remove: Is a directory")
        else
          -- directories with `-r` ask for confirmation first
          match isDirT node, answers with
          | true, [] => .error (sh, "EOF when reading a line")
          | true, ans :: answers' =>
            if strLower ans ≠ "y" then rmLoop recursive sh rest answers'
            else
              match stagePath sh path with
              | .error e => .error e
              | .ok sh2 => rmLoop recursive sh2 rest answers'
          | false, _ =>
            match stagePath sh path with
            | .error e => .error e
            | .ok sh2 => rmLoop recursive sh2 rest answers

/-- `CmdHandlers.rm`. -/
def rmH (sh : Sh) (recursive : Bool) (args : List Path) (answers : List String) : HRes :=
  if args.isEmpty then .error (sh, "rm: missing operand")
  else rmLoop recursive sh args answers

/-! ## `CmdHandlers.grep` -/

/-- Accumulating scan for `splitlines`: emit a line at each `'\n'`, and
the final partial line only when non-empty. -/
def splitLinesAux : List Char → List Char → List String
  | [], acc => if acc.isEmpty then [] else [⟨acc.reverse⟩]
  | '\n' :: rest, acc => (⟨acc.reverse⟩ : String) :: splitLinesAux rest []
  | c :: rest, acc => splitLinesAux rest (c :: acc)

/-- Python `str.splitlines` restricted to `\n` separators: no trailing
empty line, `""` has no lines. -/
def pySplitlines (s : String) : List String :=
  splitLinesAux s.data []

/-- Render a path the way `print(f"{rel_f}:...")` renders a relative
`pathlib.Path`. -/
def renderPath (p : Path) : String := String.intercalate "/" p

/-- `search_file` (lines 256-264): the `try` around `read_text` turns an
unreadable/undecodable file (`content = none`) into a silent skip; `test`
stands for `regex.search` of the compiled pattern (case folding included).
Returns the printed match lines. -/
def searchFileOut (test : String → Bool) (cwd : Path) (fpath : Path) (content : Option String) :
    List String :=
  match content with
  | none => []
  | some s =>
    ((pySplitlines s).enumFrom 1).filterMap (fun q =>
      if test q.2 then some (renderPath (fpath.drop cwd.length) ++ ":" ++ toString q.1 ++ ":" ++ q.2)
      else none)

/-- Files directly inside a directory (children list), with their
one-component relative paths. -/
def topFiles (cs : List (String × FSTree)) : List (Path × Option String) :=
  cs.filterMap (fun c =>
    match c.2 with
    | .file co => some ([c.1], co)
    | .dir _ => none)

/-- The recursive part of `os.walk`: files of each subdirectory, each
directory's own files listed before its subdirectories' (top-down). -/
def walkSub : List (String × FSTree) → List (Path × Option String)
  | [] => []
  | (n, .dir ds) :: cs =>
    ((topFiles ds ++ walkSub ds).map (fun q => (n :: q.1, q.2))) ++ walkSub cs
  | (_, .file _) :: cs => walkSub cs

/-- All files below a directory (the `os.walk` file enumeration),
paths relative to that directory. -/
def pyWalkFiles (cs : List (String × FSTree)) : List (Path × Option String) :=
  topFiles cs ++ walkSub cs

/-- `CmdHandlers.grep`, with its printed output.  `test` is the compiled
regex predicate on a line (`-i` is folded into it); the operand list holds
only the path operand (the pattern operand being `test`), so the
`len(args) != 2` arity error is the non-singleton case. -/
def grepRun (sh : Sh) (recursive : Bool) (test : String → Bool) (args : List Path) :
    Except String (List String) :=
  match args with
  | [a] =>
    let path := sh.cwd ++ a
    match lookup sh.fs path with
    | none => .error "grep: no such file or directory"
    | some (.file co) => .ok (searchFileOut test sh.cwd path co)
    | some (.dir cs) =>
      if recursive then
        .ok ((pyWalkFiles cs).flatMap (fun q => searchFileOut test sh.cwd (path ++ q.1) q.2))
      else .error "grep: is directory, use -r"
  | _ => .error "grep: usage: grep [-r] [-i] <pattern> <path>"

/-- `grep` as a state-passing handler (output discarded, state never
mutated). -/
def grepH (sh : Sh) (recursive : Bool) (test : String → Bool) (args : List Path) : HRes :=
  match grepRun sh recursive test args with
  | .ok _ => .ok sh
  | .error e => .error (sh, e)

/-- `CmdHandlers.history` (output elided): fails only when the count
argument does not parse as an integer. -/
def historyH (sh : Sh) (args : List String) : HRes :=
  match args with
  | [] => .ok sh
  | a :: _ =>
    match pyInt a with
    | some _ => .ok sh
    | none => .error (sh, "history: invalid literal for int")

/-- Execute the stored inverse action (calling the `partial` closure). -/
def runUndo (act : UndoAct) (fs : FSTree) : Except String FSTree :=
  match act with
  | .mv a b => fsMove fs a b
  | .rmTree p => fsRmtree fs p
  | .rmFile p => fsRemove fs p

/-- `CmdHandlers.undo` (lines 291-304): with no pending action, print an
informational message and succeed; otherwise run the inverse action — a
failure there propagates before the history rewrite and before the slot is
cleared — then drop the last history line and clear the slot. -/
def undoH (sh : Sh) : HRes :=
  match sh.lastUndo with
  | none => .ok sh
  | some act =>
    match runUndo act sh.fs with
    | .error e => .error (sh, e)
    | .ok fs2 => .ok { sh with fs := fs2, hist := sh.hist.dropLast, lastUndo := none }

/-! ## The dispatcher (`Shell.run`, lines 65-98) -/

/-- A tokenized command line.  Flag splitting (`-r`, `-l`, `-i`) is
represented by the boolean fields; `unknown` is a verb absent from the
`_commands` table. -/
inductive Cmd where
  | ls (long : Bool) (target : Option Path)
  | cd (arg : Option CdArg)
  | cat (args : List Path)
  | cp (recursive : Bool) (args : List Path)
  | mv (args : List Path)
  | rm (recursive : Bool) (args : List Path)
  | grep (recursive : Bool) (test : String → Bool) (args : List Path)
  | history (args : List String)
  | undo
  | exitc
  | unknown (name : String)

/-- Handler lookup and invocation (`self._commands.get` + call). -/
def dispatch (sh : Sh) (c : Cmd) (answers : List String) : HRes :=
  match c with
  | .ls _ t => lsH sh t
  | .cd a => cdH sh a
  | .cat a => catH sh a
  | .cp r a => cpH sh r a
  | .mv a => mvH sh a
  | .rm r a => rmH sh r a answers
  | .grep r test a => grepH sh r test a
  | .history a => historyH sh a
  | .undo => undoH sh
  | .exitc => .error (sh, "")   -- unreachable: `step` intercepts SystemExit
  | .unknown n => .error (sh, "Unknown command: " ++ n)

/-- One history line as written by `Shell.run`:
`f"{self.global_counter}. {cmd}"`. -/
def histLine (n : Int) (raw : String) : String :=
  toString n ++ ". " ++ raw

/-- The commit phase of `Shell.run` (lines 88-92): increment the counter,
append the history line, persist the counter file. -/
def commit (sh : Sh) (raw : String) : Sh :=
  let c := sh.counter + 1
  { sh with counter := c, hist := sh.hist ++ [histLine c raw], counterFile := some c }

/-- Outcome of one iteration of the `Shell.run` loop. -/
inductive StepRes where
  | ok (sh : Sh)
  | err (sh : Sh) (msg : String)
  | exited (sh : Sh)

/-- One iteration of the `Shell.run` loop on a non-blank input line:
dispatch the handler; on success commit; on `SystemExit` leave the loop;
on any other exception report and leave counter/history untouched. -/
def step (sh : Sh) (c : Cmd) (raw : String) (answers : List String) : StepRes :=
  match c with
  | .exitc => .exited sh
  | c =>
    match dispatch sh c answers with
    | .ok sh2 => .ok (commit sh2 raw)
    | .error (sh2, e) => .err sh2 e

/-- The `Shell.run` loop over a script of input lines (each with its
tokenized form, raw text, and confirmation answers): errors continue the
loop, `exit` stops it. -/
def runList (sh : Sh) : List (Cmd × String × List String) → Sh
  | [] => sh
  | (c, raw, ans) :: rest =>
    match step sh c raw ans with
    | .ok sh2 => runList sh2 rest
    | .err sh2 _ => runList sh2 rest
    | .exited sh2 => sh2

/-! ## Theorems -/

theorem foldl_max_bounds (xs : List Int) (x : Int) :
    x ≤ xs.foldl max x ∧ ∀ a ∈ xs, a ≤ xs.foldl max x := by
  induction xs generalizing x with
  | nil => exact ⟨le_refl x, by intro a ha; cases ha⟩
  | cons y ys ih =>
    refine ⟨le_trans (le_max_left x y) (ih (max x y)).1, ?_⟩
    intro a ha
    rcases List.mem_cons.mp ha with rfl | ha
    · exact le_trans (le_max_right x a) (ih (max x a)).1
    · exact (ih (max x y)).2 a ha

theorem max?_spec {l : List Int} {m : Int} (hm : l.max? = some m) :
    (∀ a ∈ l, a ≤ m) ∧ (m ∈ l) := by
  match l with
  | [] => simp [List.max?] at hm
  | x :: xs =>
    simp only [List.max?, Option.some.injEq] at hm
    subst hm
    constructor
    · intro a ha
      rcases List.mem_cons.mp ha with rfl | ha
      · exact (foldl_max_bounds xs a).1
      · exact (foldl_max_bounds xs x).2 a ha
    · have : ∀ (ys : List Int) (z : Int), ys.foldl max z = z ∨ ys.foldl max z ∈ ys := by
        intro ys
        induction ys with
        | nil => exact fun z => Or.inl rfl
        | cons y ys ih =>
          intro z
          simp only [List.foldl_cons]
          rcases ih (max z y) with h | h
          · rcases max_choice z y with hz | hz
            · exact Or.inl (h.trans hz)
            · exact Or.inr (List.mem_cons.mpr (Or.inl (h.trans hz)))
          · exact Or.inr (List.mem_cons.mpr (Or.inr h))
      rcases this xs x with h | h
      · rw [h]; exact List.mem_cons_self x xs
      · exact List.mem_cons.mpr (Or.inr h)

/-- The numbers parsed out of an optional history file. -/
def histNumsOf : Option (List String) → List Int
  | some l => histNums l
  | none => []

/-- **C4** — Counter recovery at startup returns the maximum of (a) the
largest leading integer before the first `.` over the non-blank lines of
the history file and (b) the integer in the counter file, each source
defaulting to 0 when absent, unreadable, or malformed (the parsed
sequence numbers being non-negative, as every number the program itself
writes is); in particular the recovered count is never lower than any
sequence number recorded in the history file. -/
theorem recover_dual_source_max (hl : Option (List String)) (ct : Option String)
    (hpos : ∀ n ∈ histNumsOf hl, 0 ≤ n) :
    recover hl ct = max ((histNumsOf hl).max?.getD 0) ((ct.bind pyInt).getD 0) ∧
      ∀ n ∈ histNumsOf hl, n ≤ recover hl ct := by
  cases hl with
  | none =>
    refine ⟨?_, by intro n hn; cases hn⟩
    simp only [recover, histNumsOf]
    cases hc : ct.bind pyInt <;> simp [List.max?]
  | some lines =>
    simp only [recover, histNumsOf] at *
    cases hm : (histNums lines).max? with
    | none =>
      have hnil : histNums lines = [] := by
        cases h : histNums lines with
        | nil => rfl
        | cons x xs => rw [h] at hm; simp [List.max?] at hm
      refine ⟨?_, by intro n hn; rw [hnil] at hn; cases hn⟩
      cases hc : ct.bind pyInt <;> simp [List.max?]
    | some m =>
      obtain ⟨hle, hmem⟩ := max?_spec hm
      have h0m : 0 ≤ m := hpos m hmem
      cases hc : ct.bind pyInt with
      | none =>
        refine ⟨?_, by intro n hn; exact hle n hn⟩
        simp [max_eq_left h0m]
      | some c =>
        refine ⟨by simp, ?_⟩
        intro n hn
        exact le_trans (hle n hn) (le_max_left m c)

/-- Witness for `recover_dual_source_max` at a concrete history and
counter file. -/
theorem recover_dual_source_max_witness :
    recover (some ["3. rm a", "junk", "7. mv x y"]) (some "5") =
      max ((histNumsOf (some ["3. rm a", "junk", "7. mv x y"])).max?.getD 0)
        (((some "5").bind pyInt).getD 0) ∧
      ∀ n ∈ histNumsOf (some ["3. rm a", "junk", "7. mv x y"]),
        n ≤ recover (some ["3. rm a", "junk", "7. mv x y"]) (some "5") :=
  recover_dual_source_max _ _ (by decide)

theorem candName_succ (base : String) (s : Nat) :
    base ++ "_" ++ toString (s + 1) = candName base (s + 1) := by
  simp [candName]

theorem stagedSearch_spec (occ : String → Bool) (base : String) :
    ∀ (fuel s k : Nat), s ≤ k → k < s + fuel → occ (candName base k) = false →
    ∃ j, s ≤ j ∧ j ≤ k ∧
      stagedSearch occ base (candName base s) (s + 1) fuel = some (candName base j) ∧
      occ (candName base j) = false ∧
      ∀ m, s ≤ m → m < j → occ (candName base m) = true := by
  intro fuel
  induction fuel with
  | zero => intro s k hsk hk _; omega
  | succ fuel ih =>
    intro s k hsk hk hfree
    rw [stagedSearch]
    cases hocc : occ (candName base s) with
    | false => exact ⟨s, le_refl s, hsk, by simp, hocc, fun m h1 h2 => absurd (lt_of_le_of_lt h1 h2) (lt_irrefl s)⟩
    | true =>
      have hks : s ≠ k := fun h => by rw [h] at hocc; rw [hocc] at hfree; cases hfree
      have h1k : s + 1 ≤ k := by omega
      obtain ⟨j, hj1, hj2, hj3, hj4, hj5⟩ := ih (s + 1) k h1k (by omega) hfree
      refine ⟨j, by omega, hj2, ?_, hj4, ?_⟩
      · simp [candName_succ, hj3]
      · intro m hm1 hm2
        rcases Nat.eq_or_lt_of_le hm1 with rfl | hm1
        · exact hocc
        · exact hj5 m hm1 hm2

/-- **C5** — Staging a path into the trash uses its base name; if that
name is taken, the suffixes `_1, _2, …` are tried in order and the first
free name is used (first-fit), so no existing trash entry is ever
overwritten; and staging two different paths sharing a base name produces
the distinct entries `name` and `name_1`. -/
theorem trash_stage_first_fit :
    (∀ (occ : String → Bool) (base : String) (fuel k : Nat), k < fuel →
      occ (candName base k) = false →
      ∃ j, j ≤ k ∧ stagedName occ base fuel = some (candName base j) ∧
        occ (candName base j) = false ∧ ∀ m, m < j → occ (candName base m) = true)
    ∧
    (∀ (occ : String → Bool) (base : String) (fuel : Nat), 2 ≤ fuel →
      occ base = false → occ (candName base 1) = false →
      stagedName occ base fuel = some base ∧
      stagedName (fun n => occ n || (n == base)) base fuel = some (candName base 1) ∧
      base ≠ candName base 1) := by
  have base0 : ∀ base : String, candName base 0 = base := fun base => by simp [candName]
  have hmain : ∀ (occ : String → Bool) (base : String) (fuel k : Nat), k < fuel →
      occ (candName base k) = false →
      ∃ j, j ≤ k ∧ stagedName occ base fuel = some (candName base j) ∧
        occ (candName base j) = false ∧ ∀ m, m < j → occ (candName base m) = true := by
    intro occ base fuel k hk hfree
    obtain ⟨j, _, hj2, hj3, hj4, hj5⟩ :=
      stagedSearch_spec occ base fuel 0 k (Nat.zero_le k) (by omega) hfree
    rw [base0] at hj3
    exact ⟨j, hj2, hj3, hj4, fun m hm => hj5 m (Nat.zero_le m) hm⟩
  refine ⟨hmain, ?_⟩
  intro occ base fuel hfuel h0 h1
  have hne : base ≠ candName base 1 := by
    intro h
    have hl := congrArg String.length h
    simp only [candName, if_neg (Nat.one_ne_zero), String.length_append] at hl
    have h2 : ("_" : String).length = 1 := rfl
    have h3 : (toString (1 : Nat)).length = 1 := rfl
    omega
  refine ⟨?_, ?_, hne⟩
  · obtain ⟨j, hj1, hj2, _, _⟩ := hmain occ base fuel 0 (by omega) (by rw [base0]; exact h0)
    interval_cases j
    rw [base0] at hj2
    exact hj2
  · have h1' : (fun n => occ n || (n == base)) (candName base 1) = false := by
      simp only [h1, Bool.false_or, beq_eq_false_iff_ne]
      exact fun h => hne h.symm
    obtain ⟨j, hj1, hj2, hj3, _⟩ :=
      hmain (fun n => occ n || (n == base)) base fuel 1 (by omega) h1'
    interval_cases j
    · rw [base0] at hj3
      simp at hj3
    · exact hj2

/-- Witness for `trash_stage_first_fit` at a concrete empty trash. -/
theorem trash_stage_first_fit_witness :
    (∃ j, j ≤ 0 ∧ stagedName (fun _ => false) "f" 1 = some (candName "f" j) ∧
      (fun _ => (false : Bool)) (candName "f" j) = false ∧
      ∀ m, m < j → (fun _ => (false : Bool)) (candName "f" m) = true)
    ∧ (stagedName (fun _ => false) "f" 2 = some "f" ∧
       stagedName (fun n => (fun _ => (false : Bool)) n || (n == "f")) "f" 2 = some (candName "f" 1) ∧
       "f" ≠ candName "f" 1) :=
  ⟨trash_stage_first_fit.1 (fun _ => false) "f" 1 0 (by decide) rfl,
   trash_stage_first_fit.2 (fun _ => false) "f" 2 (by decide) rfl rfl⟩

/-- A small concrete session state with no pending undo. -/
def c2Sh : Sh :=
  ⟨["tmp"], ["home"], ["trash"], .dir [("tmp", .dir []), ("trash", .dir [])],
    ["1. ls"], some 1, 1, none⟩

/-- **C2 counterexample** — In a state with no pending undo descriptor,
`revert` does report a no-op and raises no error, but the dispatcher then
logs the `revert` invocation itself, so the history file's contents
change (a line is appended), contradicting "does not alter history". -/
theorem revert_no_pending_cex :
    step c2Sh Cmd.undo "undo" [] =
      .ok { c2Sh with counter := 2, hist := ["1. ls", histLine 2 "undo"], counterFile := some 2 } ∧
    ["1. ls", histLine 2 "undo"] ≠ c2Sh.hist :=
  ⟨rfl, by decide⟩

/-- **C2 (amended)** — For every session state with no pending undo
descriptor, invoking revert completes as an informational no-op (the
handler reports and raises no error, and drops no history entry); the
dispatcher then commits the revert like any successful command, appending
`"<n>. <raw>"` to the history and advancing the counter by one. -/
theorem revert_no_pending_noop (sh : Sh) (raw : String) (ans : List String)
    (h : sh.lastUndo = none) :
    step sh Cmd.undo raw ans =
      .ok { sh with counter := sh.counter + 1,
                    hist := sh.hist ++ [histLine (sh.counter + 1) raw],
                    counterFile := some (sh.counter + 1) } := by
  simp [step, dispatch, undoH, h, commit]

/-- Witness for `revert_no_pending_noop`. -/
theorem revert_no_pending_noop_witness :
    step c2Sh Cmd.undo "undo" [] =
      .ok { c2Sh with counter := c2Sh.counter + 1,
                      hist := c2Sh.hist ++ [histLine (c2Sh.counter + 1) "undo"],
                      counterFile := some (c2Sh.counter + 1) } :=
  revert_no_pending_noop c2Sh "undo" [] rfl

/-- **C6** — If the inverse action executed by revert itself fails, the
error is surfaced to the user and the whole session state is left exactly
as it was: the pending undo descriptor stays registered (allowing a
retry) and the history file's last entry is not dropped. -/
theorem undo_inverse_failure_keeps_slot (sh : Sh) (act : UndoAct) (raw : String)
    (ans : List String) (e : String) (hact : sh.lastUndo = some act)
    (herr : runUndo act sh.fs = .error e) :
    step sh Cmd.undo raw ans = .err sh e := by
  simp [step, dispatch, undoH, hact, herr]

/-- A state whose pending undo is an inverse move whose source is gone. -/
def c6Sh : Sh :=
  ⟨["tmp"], ["home"], ["trash"], .dir [("tmp", .dir []), ("trash", .dir [])],
    ["1. rm a"], some 1, 1, some (.mv ["trash", "gone"] ["tmp", "a"])⟩

/-- Witness for `undo_inverse_failure_keeps_slot`. -/
theorem undo_inverse_failure_keeps_slot_witness :
    step c6Sh Cmd.undo "undo" [] = .err c6Sh "rename: no such file or directory" :=
  undo_inverse_failure_keeps_slot c6Sh (.mv ["trash", "gone"] ["tmp", "a"]) "undo" []
    "rename: no such file or directory" rfl rfl

/-- **C9** — `discard -r` on an existing directory with the confirmation
prompt declined (any answer whose lower-casing is not `"y"`) leaves the
directory in place, stages nothing in the trash, registers no undo
descriptor — yet the command completes successfully, so the sequence
counter advances and the discard is recorded in the history log. -/
theorem rm_recursive_declined (sh : Sh) (arg : Path) (cs : List (String × FSTree))
    (raw ans : String)
    (harg : arg ≠ [".."])
    (hdir : lookup sh.fs (sh.cwd ++ arg) = some (.dir cs))
    (hroot : sh.cwd ++ arg ≠ [])
    (hans : strLower ans ≠ "y") :
    step sh (Cmd.rm true [arg]) raw [ans] = .ok (commit sh raw) ∧
    (commit sh raw).fs = sh.fs ∧
    (commit sh raw).lastUndo = sh.lastUndo ∧
    (commit sh raw).counter = sh.counter + 1 ∧
    (commit sh raw).hist = sh.hist ++ [histLine (sh.counter + 1) raw] := by
  refine ⟨?_, rfl, rfl, rfl, rfl⟩
  simp only [step, dispatch, rmH, List.isEmpty_cons, Bool.false_eq_true, if_false, rmLoop,
    if_neg harg, hdir, if_neg hroot, isDirT, Bool.not_true, Bool.and_false, Bool.false_eq_true,
    if_false, if_pos hans]

/-- A state with a directory `d` under the working directory. -/
def c9Sh : Sh :=
  ⟨["tmp"], ["home"], ["trash"],
    .dir [("tmp", .dir [("d", .dir [("x", .file (some "s"))])]), ("trash", .dir [])],
    [], none, 0, none⟩

/-- Witness for `rm_recursive_declined`. -/
theorem rm_recursive_declined_witness :
    step c9Sh (Cmd.rm true [["d"]]) "rm -r d" ["n"] = .ok (commit c9Sh "rm -r d") ∧
    (commit c9Sh "rm -r d").fs = c9Sh.fs ∧
    (commit c9Sh "rm -r d").lastUndo = c9Sh.lastUndo ∧
    (commit c9Sh "rm -r d").counter = c9Sh.counter + 1 ∧
    (commit c9Sh "rm -r d").hist = c9Sh.hist ++ [histLine (c9Sh.counter + 1) "rm -r d"] :=
  rm_recursive_declined c9Sh ["d"] [("x", .file (some "s"))] "rm -r d" "n"
    (by decide) rfl (by decide) (by decide)

/-- Filesystem with `/tmp/file.txt` and an empty trash. -/
def c1Fs (content : Option String) : FSTree :=
  .dir [("tmp", .dir [("file.txt", .file content)]), ("trash", .dir [])]

/-- Session in `/tmp` over `c1Fs`, with arbitrary counter and history. -/
def c1Sh (c : Int) (h : List String) (cf : Option Int) (content : Option String) : Sh :=
  ⟨["tmp"], ["home"], ["trash"], c1Fs content, h, cf, c, none⟩

/-- The two-command script `rm file.txt` then `undo`. -/
def c1Script : List (Cmd × String × List String) :=
  [(Cmd.rm false [["file.txt"]], "rm file.txt", []), (Cmd.undo, "undo", [])]

/-- The state between the two commands of `c1Script`. -/
def c1Mid (c : Int) (h : List String) (content : Option String) : Sh :=
  ⟨["tmp"], ["home"], ["trash"],
    .dir [("tmp", .dir []), ("trash", .dir [("file.txt", .file content)])],
    h ++ [histLine (c + 1) "rm file.txt"], some (c + 1), c + 1,
    some (.mv ["trash", "file.txt"] ["tmp", "file.txt"])⟩

/-- **C1 counterexample** — Starting from counter 0 and empty history,
`rm file.txt` then `undo` restores the file, but the counter ends at 2
(not at the post-discard value 1) and the history ends as `["2. undo"]`
(not empty): the dispatcher logs `undo` as a new numbered command. -/
theorem discard_then_revert_cex :
    (runList (c1Sh 0 [] none (some "hello")) c1Script).counter = 2 ∧
    (runList (c1Sh 0 [] none (some "hello")) c1Script).hist = [histLine 2 "undo"] ∧
    lookup (runList (c1Sh 0 [] none (some "hello")) c1Script).fs ["tmp", "file.txt"] =
      some (.file (some "hello")) ∧
    ¬((runList (c1Sh 0 [] none (some "hello")) c1Script).counter = 1 ∧
      (runList (c1Sh 0 [] none (some "hello")) c1Script).hist = []) :=
  ⟨rfl, rfl, rfl, by decide⟩

/-- **C1 (amended)** — Running discard on an existing file and then revert
(with no intervening command) restores the file and removes the discard's
history entry, but revert itself is committed as a new numbered command:
the counter advances once more (to the discard's value plus one) and the
history ends with the single new entry `"<n+2>. undo"` appended to the
prior history. -/
theorem discard_then_revert_amended (c : Int) (h : List String) (cf : Option Int)
    (content : Option String) :
    runList (c1Sh c h cf content) c1Script =
      { c1Sh c h cf content with
          counter := c + 2,
          hist := h ++ [histLine (c + 2) "undo"],
          counterFile := some (c + 2) } := by
  have h1 : runList (c1Sh c h cf content) c1Script =
      runList (c1Mid c h content) [(Cmd.undo, "undo", [])] := rfl
  have h2 : runList (c1Mid c h content) [(Cmd.undo, "undo", [])] =
      ⟨["tmp"], ["home"], ["trash"], c1Fs content,
        (h ++ [histLine (c + 1) "rm file.txt"]).dropLast ++ [histLine (c + 1 + 1) "undo"],
        some (c + 1 + 1), c + 1 + 1, none⟩ := rfl
  have hc : c + 1 + 1 = c + 2 := by omega
  rw [h1, h2, List.dropLast_concat, hc]
  rfl

/-- The counter, counter file and history lines carried by a handler
result agree with those of the starting state (handlers other than a
successful `undo` never touch them). -/
def presFrame (sh : Sh) (res : HRes) : Prop :=
  match res with
  | .ok sh2 => sh2.counter = sh.counter ∧ sh2.counterFile = sh.counterFile ∧ sh2.hist = sh.hist
  | .error (sh2, _) => sh2.counter = sh.counter ∧ sh2.counterFile = sh.counterFile ∧ sh2.hist = sh.hist

theorem stagePath_presFrame (sh : Sh) (p : Path) : presFrame sh (stagePath sh p) := by
  unfold stagePath
  split
  · exact ⟨rfl, rfl, rfl⟩
  · dsimp only
    split
    · exact ⟨rfl, rfl, rfl⟩
    · exact ⟨rfl, rfl, rfl⟩

theorem presFrame_trans (sh sh3 : Sh) (hst : presFrame sh (Except.ok sh3)) (res : HRes)
    (h : presFrame sh3 res) : presFrame sh res := by
  cases res with
  | ok sh4 => exact ⟨h.1.trans hst.1, h.2.1.trans hst.2.1, h.2.2.trans hst.2.2⟩
  | error q =>
    obtain ⟨q1, q2⟩ := q
    exact ⟨h.1.trans hst.1, h.2.1.trans hst.2.1, h.2.2.trans hst.2.2⟩

theorem rmLoop_presFrame (r : Bool) :
    ∀ (args : List Path) (sh : Sh) (ans : List String), presFrame sh (rmLoop r sh args ans) := by
  intro args
  induction args with
  | nil => intro sh ans; exact ⟨rfl, rfl, rfl⟩
  | cons a rest ih =>
    intro sh ans
    rw [rmLoop]
    split
    · exact ⟨rfl, rfl, rfl⟩
    · dsimp only
      split
      · exact ⟨rfl, rfl, rfl⟩
      · split
        · exact ⟨rfl, rfl, rfl⟩
        · split
          · exact ⟨rfl, rfl, rfl⟩
          · split
            · exact ⟨rfl, rfl, rfl⟩
            · -- directory branch with a confirmation answer
              split
              · exact ih sh _
              · cases hsp : stagePath sh (sh.cwd ++ a) with
                | error p =>
                  have hst := stagePath_presFrame sh (sh.cwd ++ a)
                  rw [hsp] at hst
                  obtain ⟨p1, p2⟩ := p
                  exact hst
                | ok sh3 =>
                  have hst := stagePath_presFrame sh (sh.cwd ++ a)
                  rw [hsp] at hst
                  dsimp only
                  exact presFrame_trans sh sh3 hst _ (ih sh3 _)
            · -- file branch
              cases hsp : stagePath sh (sh.cwd ++ a) with
              | error p =>
                have hst := stagePath_presFrame sh (sh.cwd ++ a)
                rw [hsp] at hst
                obtain ⟨p1, p2⟩ := p
                exact hst
              | ok sh3 =>
                have hst := stagePath_presFrame sh (sh.cwd ++ a)
                rw [hsp] at hst
                dsimp only
                exact presFrame_trans sh sh3 hst _ (ih sh3 _)

/-- Weak frame: a successful handler may at most drop the last history
line (`undo`); a failing one leaves counter, counter file and history as
they were. -/
def presFrameW (sh : Sh) (res : HRes) : Prop :=
  match res with
  | .ok sh2 => sh2.counter = sh.counter ∧ sh2.counterFile = sh.counterFile ∧
      (sh2.hist = sh.hist ∨ sh2.hist = sh.hist.dropLast)
  | .error (sh2, _) => sh2.counter = sh.counter ∧ sh2.counterFile = sh.counterFile ∧
      sh2.hist = sh.hist

theorem presFrame_weaken (sh : Sh) (res : HRes) (h : presFrame sh res) : presFrameW sh res := by
  cases res with
  | ok sh2 => exact ⟨h.1, h.2.1, Or.inl h.2.2⟩
  | error q =>
    obtain ⟨q1, q2⟩ := q
    exact h

theorem dispatch_presFrameW (sh : Sh) (c : Cmd) (ans : List String) :
    presFrameW sh (dispatch sh c ans) := by
  cases c with
  | rm r a =>
    simp only [dispatch]
    unfold rmH
    split
    · exact ⟨rfl, rfl, rfl⟩
    · exact presFrame_weaken sh _ (rmLoop_presFrame r a sh ans)
  | ls long t =>
    simp only [dispatch]
    unfold lsH
    try dsimp only
    repeat' split
    all_goals first
      | exact ⟨rfl, rfl, Or.inl rfl⟩
      | exact ⟨rfl, rfl, Or.inr rfl⟩
      | exact ⟨rfl, rfl, rfl⟩
  | cd a =>
    simp only [dispatch]
    unfold cdH
    try dsimp only
    repeat' split
    all_goals first
      | exact ⟨rfl, rfl, Or.inl rfl⟩
      | exact ⟨rfl, rfl, Or.inr rfl⟩
      | exact ⟨rfl, rfl, rfl⟩
  | cat a =>
    simp only [dispatch]
    unfold catH
    try dsimp only
    repeat' split
    all_goals first
      | exact ⟨rfl, rfl, Or.inl rfl⟩
      | exact ⟨rfl, rfl, Or.inr rfl⟩
      | exact ⟨rfl, rfl, rfl⟩
  | cp r a =>
    simp only [dispatch]
    unfold cpH
    try dsimp only
    repeat' split
    all_goals first
      | exact ⟨rfl, rfl, Or.inl rfl⟩
      | exact ⟨rfl, rfl, Or.inr rfl⟩
      | exact ⟨rfl, rfl, rfl⟩
  | mv a =>
    simp only [dispatch]
    unfold mvH
    try dsimp only
    repeat' split
    all_goals first
      | exact ⟨rfl, rfl, Or.inl rfl⟩
      | exact ⟨rfl, rfl, Or.inr rfl⟩
      | exact ⟨rfl, rfl, rfl⟩
  | grep r test a =>
    simp only [dispatch]
    unfold grepH
    try dsimp only
    repeat' split
    all_goals first
      | exact ⟨rfl, rfl, Or.inl rfl⟩
      | exact ⟨rfl, rfl, Or.inr rfl⟩
      | exact ⟨rfl, rfl, rfl⟩
  | history a =>
    simp only [dispatch]
    unfold historyH
    try dsimp only
    repeat' split
    all_goals first
      | exact ⟨rfl, rfl, Or.inl rfl⟩
      | exact ⟨rfl, rfl, Or.inr rfl⟩
      | exact ⟨rfl, rfl, rfl⟩
  | undo =>
    simp only [dispatch]
    unfold undoH
    try dsimp only
    repeat' split
    all_goals first
      | exact ⟨rfl, rfl, Or.inl rfl⟩
      | exact ⟨rfl, rfl, Or.inr rfl⟩
      | exact ⟨rfl, rfl, rfl⟩
  | exitc =>
    simp only [dispatch]
    exact ⟨rfl, rfl, rfl⟩
  | unknown n =>
    simp only [dispatch]
    exact ⟨rfl, rfl, rfl⟩

/-- Counter, counter file, and history frame across any handler: on
success the history is either untouched or (for `undo`) its last line
dropped; on failure all three are exactly as before the command. -/
theorem dispatch_frame (sh : Sh) (c : Cmd) (ans : List String) :
    (∀ sh2, dispatch sh c ans = .ok sh2 →
      sh2.counter = sh.counter ∧ sh2.counterFile = sh.counterFile ∧
      (sh2.hist = sh.hist ∨ sh2.hist = sh.hist.dropLast)) ∧
    (∀ sh2 msg, dispatch sh c ans = .error (sh2, msg) →
      sh2.counter = sh.counter ∧ sh2.counterFile = sh.counterFile ∧ sh2.hist = sh.hist) := by
  have h := dispatch_presFrameW sh c ans
  constructor
  · intro sh2 hok
    rw [hok] at h
    exact h
  · intro sh2 msg herr
    rw [herr] at h
    exact h

/-- Every step outcome: `exit`, or a committed success, or a reported
failure carrying the handler's state at the raise. -/
theorem step_cases (sh : Sh) (c : Cmd) (raw : String) (ans : List String) :
    (c = Cmd.exitc ∧ step sh c raw ans = .exited sh) ∨
    (∃ sh2, dispatch sh c ans = .ok sh2 ∧ step sh c raw ans = .ok (commit sh2 raw)) ∨
    (∃ sh2 e, dispatch sh c ans = .error (sh2, e) ∧ step sh c raw ans = .err sh2 e) := by
  cases c <;> simp only [step] <;>
    first
      | exact Or.inl ⟨rfl, rfl⟩
      | (split
         · next sh2 heq => exact Or.inr (Or.inl ⟨sh2, heq, rfl⟩)
         · next sh2 e heq => exact Or.inr (Or.inr ⟨sh2, e, heq, rfl⟩))
      | simp

/-- State with `/tmp/a` present and no `/tmp/b`, used for the multi-operand
`rm` failure. -/
def c3Sh : Sh :=
  ⟨["tmp"], ["home"], ["trash"],
    .dir [("tmp", .dir [("a", .file (some "x"))]), ("trash", .dir [])],
    ["1. old"], some 1, 1, none⟩

/-- The state `rm a b` leaves behind when it fails on `b`. -/
def c3ShErr : Sh :=
  { c3Sh with
      fs := .dir [("tmp", .dir []), ("trash", .dir [("a", .file (some "x"))])],
      lastUndo := some (.mv ["trash", "a"] ["tmp", "a"]) }

/-- **C3 counterexample** — `rm a b` where `a` exists and `b` does not:
the command fails, the counter and history are untouched, but operand `a`
has already been staged into the trash (and the undo slot points at it),
so the trash directory is *not* left as it was before the command. -/
theorem discard_partial_commit_cex :
    step c3Sh (Cmd.rm false [["a"], ["b"]]) "rm a b" [] =
      .err c3ShErr "rm: cannot remove: No such file or directory" ∧
    lookup c3Sh.fs ["trash", "a"] = none ∧
    lookup c3ShErr.fs ["trash", "a"] = some (.file (some "x")) :=
  ⟨rfl, rfl, rfl⟩

/-- **C3 (amended)** — For every command invocation whose handler fails
with an error, the sequence counter, the history file and the counter
file are left exactly as they were before the command started; the trash
directory and undo slot, however, may keep mutations made before the
failure point (operands of a multi-operand discard staged before the
failing operand remain staged). -/
theorem error_preserves_counter_history (sh : Sh) (c : Cmd) (raw : String)
    (ans : List String) (sh2 : Sh) (msg : String)
    (h : step sh c raw ans = .err sh2 msg) :
    sh2.counter = sh.counter ∧ sh2.hist = sh.hist ∧ sh2.counterFile = sh.counterFile := by
  rcases step_cases sh c raw ans with ⟨_, hstep⟩ | ⟨sh3, _, hstep⟩ | ⟨sh3, e, hd, hstep⟩
  · rw [hstep] at h; cases h
  · rw [hstep] at h; cases h
  · rw [hstep] at h
    cases h
    have hfr := (dispatch_frame sh c ans).2 _ _ hd
    exact ⟨hfr.1, hfr.2.2, hfr.2.1⟩

/-- Witness for `error_preserves_counter_history` at the concrete failing
`rm a b`. -/
theorem error_preserves_counter_history_witness :
    c3ShErr.counter = c3Sh.counter ∧ c3ShErr.hist = c3Sh.hist ∧
    c3ShErr.counterFile = c3Sh.counterFile :=
  error_preserves_counter_history c3Sh (Cmd.rm false [["a"], ["b"]]) "rm a b" []
    c3ShErr "rm: cannot remove: No such file or directory" rfl

/-! ## History invariant (C7) -/

/-- The history file is a list of lines `"<n>. <raw>"` whose sequence
numbers strictly increase and never exceed the current counter. -/
def goodHist (hist : List String) (counter : Int) : Prop :=
  ∃ ns : List (Int × String),
    hist = ns.map (fun q => histLine q.1 q.2) ∧
    List.Chain' (· < ·) (ns.map Prod.fst) ∧
    ∀ n ∈ ns.map Prod.fst, n ≤ counter

theorem goodHist_dropLast (hist : List String) (counter : Int)
    (h : goodHist hist counter) : goodHist hist.dropLast counter := by
  obtain ⟨ns, h1, h2, h3⟩ := h
  have hsub : (ns.dropLast.map Prod.fst).Sublist (ns.map Prod.fst) := by
    rw [List.map_dropLast]
    exact (ns.map Prod.fst).dropLast_sublist
  refine ⟨ns.dropLast, ?_, h2.sublist hsub, fun n hn => h3 n (hsub.subset hn)⟩
  rw [h1]
  exact (List.map_dropLast _ ns).symm

theorem goodHist_append (hist : List String) (counter : Int) (raw : String)
    (h : goodHist hist counter) :
    goodHist (hist ++ [histLine (counter + 1) raw]) (counter + 1) := by
  obtain ⟨ns, h1, h2, h3⟩ := h
  refine ⟨ns ++ [(counter + 1, raw)], ?_, ?_, ?_⟩
  · simp [h1]
  · rw [List.map_append]
    rw [List.chain'_append]
    refine ⟨h2, List.chain'_singleton _, ?_⟩
    intro x hx y hy
    simp only [List.map_cons, List.map_nil, List.head?_cons, Option.mem_def,
      Option.some.injEq] at hy
    have hxmem : x ∈ ns.map Prod.fst := List.mem_of_mem_getLast? hx
    have := h3 x hxmem
    omega
  · intro n hn
    rw [List.map_append, List.mem_append] at hn
    rcases hn with hn | hn
    · exact le_trans (h3 n hn) (by omega)
    · simp only [List.map_cons, List.map_nil, List.mem_singleton] at hn
      omega

/-- One step preserves the history invariant. -/
theorem step_goodHist (sh : Sh) (c : Cmd) (raw : String) (ans : List String)
    (h : goodHist sh.hist sh.counter) :
    match step sh c raw ans with
    | .ok sh2 => goodHist sh2.hist sh2.counter
    | .err sh2 _ => goodHist sh2.hist sh2.counter
    | .exited sh2 => goodHist sh2.hist sh2.counter := by
  rcases step_cases sh c raw ans with ⟨_, hstep⟩ | ⟨sh3, hd, hstep⟩ | ⟨sh3, e, hd, hstep⟩
  · rw [hstep]
    exact h
  · rw [hstep]
    have hfr := (dispatch_frame sh c ans).1 sh3 hd
    have hmid : goodHist sh3.hist sh3.counter := by
      rcases hfr.2.2 with heq | heq
      · rw [heq, hfr.1]
        exact h
      · rw [heq, hfr.1]
        exact goodHist_dropLast _ _ h
    have := goodHist_append sh3.hist sh3.counter raw hmid
    simp only [commit]
    exact this
  · rw [hstep]
    dsimp only
    have hfr := (dispatch_frame sh c ans).2 sh3 e hd
    rw [hfr.1, hfr.2.2]
    exact h

/-- **C7** — Across every sequence of operations the history file holds
one entry per line of the form `"<sequenceNumber>. <rawCommandLine>"`
with strictly increasing sequence numbers (revert's drop of the last
entry and its own committed entry included), and each successfully
completed command increases the sequence counter by exactly 1. -/
theorem history_strictly_increasing :
    (∀ (sh : Sh) (script : List (Cmd × String × List String)),
      goodHist sh.hist sh.counter →
      goodHist (runList sh script).hist (runList sh script).counter) ∧
    (∀ (sh : Sh) (c : Cmd) (raw : String) (ans : List String) (sh2 : Sh),
      step sh c raw ans = .ok sh2 → sh2.counter = sh.counter + 1) := by
  constructor
  · intro sh script
    induction script generalizing sh with
    | nil => exact fun h => h
    | cons entry rest ih =>
      intro h
      obtain ⟨c, raw, ans⟩ := entry
      have hst := step_goodHist sh c raw ans h
      rw [runList]
      cases hstep : step sh c raw ans with
      | ok sh2 =>
        rw [hstep] at hst
        exact ih sh2 hst
      | err sh2 msg =>
        rw [hstep] at hst
        exact ih sh2 hst
      | exited sh2 =>
        rw [hstep] at hst
        exact hst
  · intro sh c raw ans sh2 hstep
    rcases step_cases sh c raw ans with ⟨_, hs⟩ | ⟨sh3, hd, hs⟩ | ⟨sh3, e, hd, hs⟩
    · rw [hs] at hstep; cases hstep
    · rw [hs] at hstep
      cases hstep
      have hfr := (dispatch_frame sh c ans).1 sh3 hd
      simp only [commit]
      rw [hfr.1]
    · rw [hs] at hstep; cases hstep

/-- Witness for `history_strictly_increasing`: the empty history is good,
stays good across the concrete `rm`-then-`undo` script, and the concrete
successful `rm` advances the counter from 0 to 1. -/
theorem history_strictly_increasing_witness :
    goodHist (runList (c1Sh 0 [] none (some "x")) c1Script).hist
      (runList (c1Sh 0 [] none (some "x")) c1Script).counter ∧
    (c1Mid 0 [] (some "x")).counter = (c1Sh 0 [] none (some "x")).counter + 1 :=
  ⟨history_strictly_increasing.1 (c1Sh 0 [] none (some "x")) c1Script
      ⟨[], rfl, List.chain'_nil, by simp⟩,
   history_strictly_increasing.2 (c1Sh 0 [] none (some "x"))
      (Cmd.rm false [["file.txt"]]) "rm file.txt" [] (c1Mid 0 [] (some "x")) rfl⟩

/-- Concatenation maps ignore filtered-out elements that contribute
nothing. -/
theorem flatMap_filter_eq {α β : Type} (p : α → Bool) (f : α → List β) (l : List α)
    (h : ∀ x, p x = false → f x = []) :
    (l.filter p).flatMap f = l.flatMap f := by
  induction l with
  | nil => rfl
  | cons x xs ih =>
    cases hp : p x with
    | true => simp [List.filter_cons, hp, ih]
    | false => simp [List.filter_cons, hp, h x hp, ih]

/-- **C10** — During search, a file whose contents cannot be read or
decoded as UTF-8 (content `none`) is silently skipped rather than causing
the search command to fail: recursive search over a directory succeeds
and reports exactly the matches of the readable files it walks, and
search of a single unreadable file succeeds with no output. -/
theorem grep_skips_unreadable :
    (∀ (sh : Sh) (a : Path) (test : String → Bool) (cs : List (String × FSTree)),
      lookup sh.fs (sh.cwd ++ a) = some (.dir cs) →
      ∃ out, grepRun sh true test [a] = .ok out ∧
        out = ((pyWalkFiles cs).filter (fun q => q.2.isSome)).flatMap
          (fun q => searchFileOut test sh.cwd ((sh.cwd ++ a) ++ q.1) q.2))
    ∧
    (∀ (sh : Sh) (a : Path) (test : String → Bool) (r : Bool),
      lookup sh.fs (sh.cwd ++ a) = some (.file none) →
      grepRun sh r test [a] = .ok []) := by
  constructor
  · intro sh a test cs hdir
    refine ⟨(pyWalkFiles cs).flatMap
      (fun q => searchFileOut test sh.cwd ((sh.cwd ++ a) ++ q.1) q.2), ?_, ?_⟩
    · simp [grepRun, hdir]
    · exact (flatMap_filter_eq _ _ _ (fun x hx => by
        cases hc : x.2 with
        | some s => rw [hc] at hx; simp at hx
        | none => rfl)).symm
  · intro sh a test r hfile
    simp only [grepRun, hfile, searchFileOut]

/-- Witness for `grep_skips_unreadable`: one readable and one unreadable
file under a directory, plus a single unreadable file. -/
theorem grep_skips_unreadable_witness :
    (∃ out, grepRun ⟨[], ["home"], ["trash"],
        .dir [("d", .dir [("ok.txt", .file (some "m")), ("bad.bin", .file none)])],
        [], none, 0, none⟩ true (fun l => l == "m") [["d"]] = .ok out ∧
      out = ((pyWalkFiles [("ok.txt", FSTree.file (some "m")), ("bad.bin", FSTree.file none)]).filter
          (fun q => q.2.isSome)).flatMap
        (fun q => searchFileOut (fun l => l == "m") [] ((([] : Path) ++ ["d"]) ++ q.1) q.2)) ∧
    grepRun ⟨[], ["home"], ["trash"], .dir [("u.bin", .file none)], [], none, 0, none⟩
      false (fun l => l == "m") [["u.bin"]] = .ok [] :=
  ⟨grep_skips_unreadable.1 ⟨[], ["home"], ["trash"],
      .dir [("d", .dir [("ok.txt", .file (some "m")), ("bad.bin", .file none)])],
      [], none, 0, none⟩ ["d"] (fun l => l == "m")
      [("ok.txt", FSTree.file (some "m")), ("bad.bin", FSTree.file none)] rfl,
   grep_skips_unreadable.2 ⟨[], ["home"], ["trash"], .dir [("u.bin", .file none)],
      [], none, 0, none⟩ ["u.bin"] (fun l => l == "m") false rfl⟩

/-! ## Filesystem round-trip machinery (C8) -/

/-- The immediate kind of a filesystem node: file (with its raw content)
or directory.  Two trees with the same view at every path are the same
filesystem up to directory-entry order, which on a real filesystem is not
observable. -/
inductive NodeView where
  | vfile (content : Option String)
  | vdir
deriving DecidableEq

def nview : FSTree → NodeView
  | .file c => .vfile c
  | .dir _ => .vdir

/-- The node kind visible at a path. -/
def viewAt (fs : FSTree) (p : Path) : Option NodeView := (lookup fs p).map nview

/-- No two children of one directory share a name. -/
def namesNodupB : List (String × FSTree) → Bool
  | [] => true
  | c :: cs => cs.all (fun d => !(d.1 == c.1)) && namesNodupB cs

mutual

/-- Well-formed tree: every directory's child names are distinct (true of
any real directory). -/
def wfb : FSTree → Bool
  | .file _ => true
  | .dir cs => namesNodupB cs && wfbL cs

def wfbL : List (String × FSTree) → Bool
  | [] => true
  | c :: cs => wfb c.2 && wfbL cs

end

theorem findChild_setChild_self (cs : List (String × FSTree)) (n : String) (t : FSTree) :
    findChild (setChild cs n t) n = some t := by
  induction cs with
  | nil => simp [setChild, findChild]
  | cons c cs ih =>
    by_cases h : c.1 = n
    · simp [setChild, h, findChild]
    · simp [setChild, h, findChild, ih]

theorem findChild_setChild_ne (cs : List (String × FSTree)) (n m : String) (t : FSTree)
    (h : m ≠ n) : findChild (setChild cs n t) m = findChild cs m := by
  have hnm : ¬(n = m) := fun hh => h hh.symm
  induction cs with
  | nil => simp [setChild, findChild, hnm]
  | cons c cs ih =>
    by_cases hc : c.1 = n
    · have hcm : ¬(c.1 = m) := fun hh => hnm (hc.symm.trans hh)
      simp [setChild, hc, findChild, hnm, hcm]
    · by_cases hm : c.1 = m
      · simp [setChild, hc, findChild, hm, hnm, h]
      · simp [setChild, hc, findChild, hm, ih]

theorem findChild_eraseChild_ne (cs : List (String × FSTree)) (n m : String)
    (h : m ≠ n) : findChild (eraseChild cs n) m = findChild cs m := by
  have hnm : ¬(n = m) := fun hh => h hh.symm
  induction cs with
  | nil => simp [eraseChild, findChild]
  | cons c cs ih =>
    by_cases hc : c.1 = n
    · have hcm : ¬(c.1 = m) := fun hh => h ((hh.symm.trans hc) : m = n)
      simp [eraseChild, hc, findChild, hcm, hnm]
    · by_cases hm : c.1 = m
      · simp [eraseChild, hc, findChild, hm, hnm, h]
      · simp [eraseChild, hc, findChild, hm, ih]

theorem findChild_none_of_all_ne (cs : List (String × FSTree)) (n : String)
    (h : cs.all (fun d => !(d.1 == n)) = true) : findChild cs n = none := by
  induction cs with
  | nil => rfl
  | cons c cs ih =>
    simp only [List.all_cons, Bool.and_eq_true] at h
    rw [findChild]
    rw [if_neg (by simpa using h.1)]
    exact ih h.2

theorem findChild_eraseChild_self (cs : List (String × FSTree)) (n : String)
    (h : namesNodupB cs = true) : findChild (eraseChild cs n) n = none := by
  induction cs with
  | nil => rfl
  | cons c cs ih =>
    rw [namesNodupB, Bool.and_eq_true] at h
    by_cases hc : c.1 = n
    · rw [eraseChild, if_pos hc]
      exact findChild_none_of_all_ne cs n (by rw [← hc]; exact h.1)
    · rw [eraseChild, if_neg hc, findChild, if_neg hc]
      exact ih h.2

theorem all_setChild (cs : List (String × FSTree)) (n : String) (t : FSTree)
    (q : String × FSTree → Bool) (h1 : cs.all q = true) (h2 : q (n, t) = true) :
    (setChild cs n t).all q = true := by
  induction cs with
  | nil => simp [setChild, h2]
  | cons c cs ih =>
    rw [List.all_cons, Bool.and_eq_true] at h1
    by_cases hc : c.1 = n
    · simp [setChild, hc, h2, h1.2]
    · simp [setChild, hc, h1.1, ih h1.2]

theorem all_eraseChild (cs : List (String × FSTree)) (n : String)
    (q : String × FSTree → Bool) (h1 : cs.all q = true) :
    (eraseChild cs n).all q = true := by
  induction cs with
  | nil => simp [eraseChild]
  | cons c cs ih =>
    rw [List.all_cons, Bool.and_eq_true] at h1
    by_cases hc : c.1 = n
    · simp [eraseChild, hc, h1.2]
    · simp [eraseChild, hc, h1.1, ih h1.2]

theorem namesNodupB_setChild (cs : List (String × FSTree)) (n : String) (t : FSTree)
    (h : namesNodupB cs = true) : namesNodupB (setChild cs n t) = true := by
  induction cs with
  | nil => simp [setChild, namesNodupB]
  | cons c cs ih =>
    rw [namesNodupB, Bool.and_eq_true] at h
    by_cases hc : c.1 = n
    · rw [setChild, if_pos hc, namesNodupB]
      subst hc
      simp [h.1, h.2]
    · rw [setChild, if_neg hc, namesNodupB, Bool.and_eq_true]
      refine ⟨all_setChild cs n t _ h.1 ?_, ih h.2⟩
      simp
      exact fun hh => hc hh.symm

theorem namesNodupB_eraseChild (cs : List (String × FSTree)) (n : String)
    (h : namesNodupB cs = true) : namesNodupB (eraseChild cs n) = true := by
  induction cs with
  | nil => simp [eraseChild, namesNodupB]
  | cons c cs ih =>
    rw [namesNodupB, Bool.and_eq_true] at h
    by_cases hc : c.1 = n
    · rw [eraseChild, if_pos hc]
      exact h.2
    · rw [eraseChild, if_neg hc, namesNodupB, Bool.and_eq_true]
      exact ⟨all_eraseChild cs n _ h.1, ih h.2⟩

theorem wfbL_setChild (cs : List (String × FSTree)) (n : String) (t : FSTree)
    (h : wfbL cs = true) (ht : wfb t = true) : wfbL (setChild cs n t) = true := by
  induction cs with
  | nil => simp [setChild, wfbL, ht]
  | cons c cs ih =>
    rw [wfbL, Bool.and_eq_true] at h
    by_cases hc : c.1 = n
    · rw [setChild, if_pos hc, wfbL, Bool.and_eq_true]
      exact ⟨ht, h.2⟩
    · rw [setChild, if_neg hc, wfbL, Bool.and_eq_true]
      exact ⟨h.1, ih h.2⟩

theorem wfbL_eraseChild (cs : List (String × FSTree)) (n : String)
    (h : wfbL cs = true) : wfbL (eraseChild cs n) = true := by
  induction cs with
  | nil => simp [eraseChild, wfbL]
  | cons c cs ih =>
    rw [wfbL, Bool.and_eq_true] at h
    by_cases hc : c.1 = n
    · rw [eraseChild, if_pos hc]
      exact h.2
    · rw [eraseChild, if_neg hc, wfbL, Bool.and_eq_true]
      exact ⟨h.1, ih h.2⟩

theorem wfb_findChild (cs : List (String × FSTree)) (n : String) (c : FSTree)
    (h : wfbL cs = true) (hf : findChild cs n = some c) : wfb c = true := by
  induction cs with
  | nil => cases hf
  | cons d cs ih =>
    rw [wfbL, Bool.and_eq_true] at h
    rw [findChild] at hf
    by_cases hd : d.1 = n
    · rw [if_pos hd] at hf
      cases hf
      exact h.1
    · rw [if_neg hd] at hf
      exact ih h.2 hf

theorem wfb_dir_iff (cs : List (String × FSTree)) :
    wfb (.dir cs) = true ↔ (namesNodupB cs = true ∧ wfbL cs = true) := by
  rw [wfb, Bool.and_eq_true]

theorem wfb_erase (q : Path) : ∀ (fs : FSTree), wfb fs = true → wfb (erase fs q) = true := by
  induction q with
  | nil => intro fs h; simpa [erase]
  | cons n q' ih =>
    intro fs h
    cases fs with
    | file c => simpa [erase]
    | dir cs =>
      rw [wfb_dir_iff] at h
      cases q' with
      | nil =>
        rw [erase, wfb_dir_iff]
        exact ⟨namesNodupB_eraseChild cs n h.1, wfbL_eraseChild cs n h.2⟩
      | cons q2 qrest =>
        cases hf : findChild cs n with
        | none => rw [erase, hf]; exact (wfb_dir_iff cs).mpr h
        | some c =>
          rw [erase, hf, wfb_dir_iff]
          refine ⟨namesNodupB_setChild cs n _ h.1,
            wfbL_setChild cs n _ h.2 (ih c (wfb_findChild cs n c h.2 hf))⟩

theorem wfb_lookup (p : Path) : ∀ (fs t : FSTree), wfb fs = true →
    lookup fs p = some t → wfb t = true := by
  induction p with
  | nil =>
    intro fs t h hl
    rw [lookup] at hl
    cases hl
    exact h
  | cons n p' ih =>
    intro fs t h hl
    cases fs with
    | file c => cases hl
    | dir cs =>
      rw [lookup] at hl
      cases hf : findChild cs n with
      | none => rw [hf] at hl; cases hl
      | some c =>
        rw [hf] at hl
        exact ih c t (wfb_findChild cs n c ((wfb_dir_iff cs).mp h).2 hf) hl

theorem wfb_insertAt (q : Path) : ∀ (fs sub fs2 : FSTree), wfb fs = true →
    wfb sub = true → insertAt fs q sub = some fs2 → wfb fs2 = true := by
  induction q with
  | nil =>
    intro fs sub fs2 _ _ hi
    rw [insertAt] at hi
    cases hi
  | cons n q' ih =>
    intro fs sub fs2 h hsub hi
    cases fs with
    | file c => cases hi
    | dir cs =>
      rw [wfb_dir_iff] at h
      cases q' with
      | nil =>
        rw [insertAt] at hi
        cases hi
        rw [wfb_dir_iff]
        exact ⟨namesNodupB_setChild cs n sub h.1, wfbL_setChild cs n sub h.2 hsub⟩
      | cons q2 qrest =>
        rw [insertAt] at hi
        cases hf : findChild cs n with
        | none => rw [hf] at hi; cases hi
        | some c =>
          rw [hf] at hi
          have hi2 : (insertAt c (q2 :: qrest) sub).map
              (fun c2 => FSTree.dir (setChild cs n c2)) = some fs2 := hi
          cases hc2 : insertAt c (q2 :: qrest) sub with
          | none => rw [hc2] at hi2; cases hi2
          | some c2 =>
            rw [hc2] at hi2
            have hi3 : FSTree.dir (setChild cs n c2) = fs2 := by simpa using hi2
            rw [← hi3, wfb_dir_iff]
            have hwc2 := ih c sub c2 (wfb_findChild cs n c h.2 hf) hsub hc2
            exact ⟨namesNodupB_setChild cs n c2 h.1, wfbL_setChild cs n c2 h.2 hwc2⟩

theorem lookup_append (p : Path) : ∀ (fs : FSTree) (q : Path),
    lookup fs (p ++ q) = (lookup fs p).bind (fun t => lookup t q) := by
  induction p with
  | nil => intro fs q; simp [lookup]
  | cons n p' ih =>
    intro fs q
    cases fs with
    | file c => simp [lookup]
    | dir cs =>
      rw [List.cons_append, lookup, lookup]
      cases findChild cs n with
      | none => simp
      | some c => simpa using ih c q

/-- A strict ancestor of a present path is a directory. -/
theorem viewAt_vdir_of_lookup (fs : FSTree) (p : Path) (x : String) (r : Path) (t : FSTree)
    (h : lookup fs (p ++ (x :: r)) = some t) : viewAt fs p = some .vdir := by
  rw [lookup_append] at h
  cases hy : lookup fs p with
  | none => rw [hy] at h; cases h
  | some y =>
    rw [hy] at h
    cases y with
    | file c => simp [lookup] at h
    | dir cs => simp [viewAt, hy, nview]

theorem nview_erase (fs : FSTree) (q : Path) : nview (erase fs q) = nview fs := by
  cases q with
  | nil => cases fs <;> rfl
  | cons n q' =>
    cases fs with
    | file c => rfl
    | dir cs =>
      cases q' with
      | nil => rfl
      | cons q2 qrest =>
        rw [erase]
        cases findChild cs n <;> rfl

/-- Erasing one path leaves lookups at prefix-incomparable paths alone. -/
theorem lookup_erase_disjoint (q : Path) : ∀ (fs : FSTree) (p : Path),
    ¬(q <+: p) → ¬(p <+: q) → lookup (erase fs q) p = lookup fs p := by
  induction q with
  | nil => intro fs p h1 _; exact absurd List.nil_prefix h1
  | cons n q' ih =>
    intro fs p h1 h2
    cases p with
    | nil => exact absurd List.nil_prefix h2
    | cons m p' =>
      cases fs with
      | file c => rfl
      | dir cs =>
        cases q' with
        | nil =>
          have hnm : n ≠ m := by
            intro hh
            exact h1 (by rw [hh]; exact ⟨p', rfl⟩)
          rw [erase, lookup, lookup, findChild_eraseChild_ne cs n m (fun hh => hnm hh.symm)]
        | cons q2 qrest =>
          by_cases hm : n = m
          · subst hm
            cases hf : findChild cs n with
            | none => rw [erase, hf]
            | some c =>
              rw [erase, hf, lookup, lookup, findChild_setChild_self, hf]
              have h1' : ¬((q2 :: qrest) <+: p') := fun hh => h1 (List.cons_prefix_cons.mpr ⟨rfl, hh⟩)
              have h2' : ¬(p' <+: (q2 :: qrest)) := fun hh => h2 (List.cons_prefix_cons.mpr ⟨rfl, hh⟩)
              exact ih c p' h1' h2'
          · cases hf : findChild cs n with
            | none => rw [erase, hf]
            | some c =>
              rw [erase, hf, lookup, lookup,
                findChild_setChild_ne cs n m _ (fun hh => hm hh.symm)]

/-- After erasing an existing-or-not path in a well-formed tree, nothing
is found at or below it. -/
theorem lookup_erase_self (q : Path) : ∀ (fs : FSTree) (r : Path), wfb fs = true → q ≠ [] →
    lookup (erase fs q) (q ++ r) = none := by
  induction q with
  | nil => intro fs r _ hq; exact absurd rfl hq
  | cons n q' ih =>
    intro fs r hwf _
    cases fs with
    | file c => simp [erase, lookup]
    | dir cs =>
      rw [wfb_dir_iff] at hwf
      cases q' with
      | nil =>
        rw [erase, List.cons_append, List.nil_append, lookup,
          findChild_eraseChild_self cs n hwf.1]
      | cons q2 qrest =>
        cases hf : findChild cs n with
        | none => rw [erase, hf, List.cons_append, lookup, hf]
        | some c =>
          rw [erase, hf, List.cons_append, lookup, findChild_setChild_self]
          exact ih c r (wfb_findChild cs n c hwf.2 hf) (by simp)

/-- Erasing below a strict ancestor does not change the ancestor's kind. -/
theorem viewAt_erase_ancestor (q : Path) : ∀ (fs : FSTree) (p : Path), p <+: q → p ≠ q →
    viewAt (erase fs q) p = viewAt fs p := by
  induction q with
  | nil =>
    intro fs p hpre hne
    exact absurd (List.prefix_nil.mp hpre) hne
  | cons n q' ih =>
    intro fs p hpre hne
    cases p with
    | nil => simp [viewAt, lookup, nview_erase]
    | cons m p' =>
      obtain ⟨rfl, hpre'⟩ := List.cons_prefix_cons.mp hpre
      have hne' : p' ≠ q' := fun hh => hne (by rw [hh])
      cases fs with
      | file c => rfl
      | dir cs =>
        cases q' with
        | nil => exact absurd (List.prefix_nil.mp hpre') hne'
        | cons q2 qrest =>
          cases hf : findChild cs m with
          | none => rw [erase, hf]
          | some c =>
            rw [erase, hf, viewAt, viewAt, lookup, lookup, findChild_setChild_self, hf]
            exact ih c p' hpre' hne'

theorem lookup_insertAt_self (q : Path) : ∀ (fs sub fs2 : FSTree) (r : Path),
    insertAt fs q sub = some fs2 → lookup fs2 (q ++ r) = lookup sub r := by
  induction q with
  | nil => intro fs sub fs2 r hi; rw [insertAt] at hi; cases hi
  | cons n q' ih =>
    intro fs sub fs2 r hi
    cases fs with
    | file c => rw [insertAt] at hi; cases hi
    | dir cs =>
      cases q' with
      | nil =>
        rw [insertAt] at hi
        cases hi
        rw [List.cons_append, List.nil_append, lookup, findChild_setChild_self]
      | cons q2 qrest =>
        rw [insertAt] at hi
        cases hf : findChild cs n with
        | none => rw [hf] at hi; cases hi
        | some c =>
          rw [hf] at hi
          have hi2 : (insertAt c (q2 :: qrest) sub).map
              (fun c2 => FSTree.dir (setChild cs n c2)) = some fs2 := hi
          cases hc2 : insertAt c (q2 :: qrest) sub with
          | none => rw [hc2] at hi2; cases hi2
          | some c2 =>
            rw [hc2] at hi2
            have hfs2 : FSTree.dir (setChild cs n c2) = fs2 := by simpa using hi2
            subst hfs2
            rw [List.cons_append, lookup, findChild_setChild_self]
            exact ih c sub c2 r hc2

theorem lookup_insertAt_disjoint (q : Path) : ∀ (fs sub fs2 : FSTree) (p : Path),
    insertAt fs q sub = some fs2 → ¬(q <+: p) → ¬(p <+: q) →
    lookup fs2 p = lookup fs p := by
  induction q with
  | nil => intro fs sub fs2 p hi _ _; rw [insertAt] at hi; cases hi
  | cons n q' ih =>
    intro fs sub fs2 p hi h1 h2
    cases p with
    | nil => exact absurd List.nil_prefix h2
    | cons m p' =>
      cases fs with
      | file c => rw [insertAt] at hi; cases hi
      | dir cs =>
        cases q' with
        | nil =>
          rw [insertAt] at hi
          cases hi
          have hnm : n ≠ m := by
            intro hh
            exact h1 (by rw [hh]; exact ⟨p', rfl⟩)
          rw [lookup, lookup, findChild_setChild_ne cs n m _ (fun hh => hnm hh.symm)]
        | cons q2 qrest =>
          rw [insertAt] at hi
          cases hf : findChild cs n with
          | none => rw [hf] at hi; cases hi
          | some c =>
            rw [hf] at hi
            have hi2 : (insertAt c (q2 :: qrest) sub).map
                (fun c2 => FSTree.dir (setChild cs n c2)) = some fs2 := hi
            cases hc2 : insertAt c (q2 :: qrest) sub with
            | none => rw [hc2] at hi2; cases hi2
            | some c2 =>
              rw [hc2] at hi2
              have hfs2 : FSTree.dir (setChild cs n c2) = fs2 := by simpa using hi2
              subst hfs2
              by_cases hm : n = m
              · subst hm
                rw [lookup, lookup, findChild_setChild_self, hf]
                have h1' : ¬((q2 :: qrest) <+: p') := fun hh => h1 (List.cons_prefix_cons.mpr ⟨rfl, hh⟩)
                have h2' : ¬(p' <+: (q2 :: qrest)) := fun hh => h2 (List.cons_prefix_cons.mpr ⟨rfl, hh⟩)
                exact ih c sub c2 p' hc2 h1' h2'
              · rw [lookup, lookup, findChild_setChild_ne cs n m _ (fun hh => hm hh.symm)]

theorem viewAt_insertAt_ancestor (q : Path) : ∀ (fs sub fs2 : FSTree) (p : Path),
    insertAt fs q sub = some fs2 → p <+: q → p ≠ q →
    viewAt fs2 p = viewAt fs p := by
  induction q with
  | nil => intro fs sub fs2 p hi _ _; rw [insertAt] at hi; cases hi
  | cons n q' ih =>
    intro fs sub fs2 p hi hpre hne
    cases fs with
    | file c => rw [insertAt] at hi; cases hi
    | dir cs =>
      cases p with
      | nil =>
        have : ∃ ds, fs2 = FSTree.dir ds := by
          cases q' with
          | nil =>
            rw [insertAt] at hi
            cases hi
            exact ⟨_, rfl⟩
          | cons q2 qrest =>
            rw [insertAt] at hi
            cases hf : findChild cs n with
            | none => rw [hf] at hi; cases hi
            | some c =>
              rw [hf] at hi
              have hi2 : (insertAt c (q2 :: qrest) sub).map
                  (fun c2 => FSTree.dir (setChild cs n c2)) = some fs2 := hi
              cases hc2 : insertAt c (q2 :: qrest) sub with
              | none => rw [hc2] at hi2; cases hi2
              | some c2 =>
                rw [hc2] at hi2
                exact ⟨_, (by simpa using hi2 : FSTree.dir (setChild cs n c2) = fs2).symm⟩
        obtain ⟨ds, rfl⟩ := this
        rfl
      | cons m p' =>
        obtain ⟨rfl, hpre'⟩ := List.cons_prefix_cons.mp hpre
        have hne' : p' ≠ q' := fun hh => hne (by rw [hh])
        cases q' with
        | nil => exact absurd (List.prefix_nil.mp hpre') hne'
        | cons q2 qrest =>
          rw [insertAt] at hi
          cases hf : findChild cs m with
          | none => rw [hf] at hi; cases hi
          | some c =>
            rw [hf] at hi
            have hi2 : (insertAt c (q2 :: qrest) sub).map
                (fun c2 => FSTree.dir (setChild cs m c2)) = some fs2 := hi
            cases hc2 : insertAt c (q2 :: qrest) sub with
            | none => rw [hc2] at hi2; cases hi2
            | some c2 =>
              rw [hc2] at hi2
              have hfs2 : FSTree.dir (setChild cs m c2) = fs2 := by simpa using hi2
              subst hfs2
              rw [viewAt, viewAt, lookup, lookup, findChild_setChild_self, hf]
              exact ih c sub c2 p' hc2 hpre' hne'

theorem insertAt_ancestors (q : Path) : ∀ (fs sub fs2 : FSTree),
    insertAt fs q sub = some fs2 → ∀ p, p <+: q → p ≠ q →
    viewAt fs p = some .vdir := by
  induction q with
  | nil => intro fs sub fs2 hi _ _ _; rw [insertAt] at hi; cases hi
  | cons n q' ih =>
    intro fs sub fs2 hi p hpre hne
    cases fs with
    | file c => rw [insertAt] at hi; cases hi
    | dir cs =>
      cases p with
      | nil => rfl
      | cons m p' =>
        obtain ⟨rfl, hpre'⟩ := List.cons_prefix_cons.mp hpre
        have hne' : p' ≠ q' := fun hh => hne (by rw [hh])
        cases q' with
        | nil => exact absurd (List.prefix_nil.mp hpre') hne'
        | cons q2 qrest =>
          rw [insertAt] at hi
          cases hf : findChild cs m with
          | none => rw [hf] at hi; cases hi
          | some c =>
            rw [hf] at hi
            have hi2 : (insertAt c (q2 :: qrest) sub).map
                (fun c2 => FSTree.dir (setChild cs m c2)) = some fs2 := hi
            cases hc2 : insertAt c (q2 :: qrest) sub with
            | none => rw [hc2] at hi2; cases hi2
            | some c2 =>
              rw [viewAt, lookup, hf]
              exact ih c sub c2 hc2 p' hpre' hne'

theorem insertAt_some_of_ancestors (q : Path) : ∀ (fs sub : FSTree), q ≠ [] →
    (∀ p, p <+: q → p ≠ q → viewAt fs p = some .vdir) →
    ∃ fs2, insertAt fs q sub = some fs2 := by
  induction q with
  | nil => intro fs sub hq _; exact absurd rfl hq
  | cons n q' ih =>
    intro fs sub _ hanc
    have hroot := hanc [] List.nil_prefix (by simp)
    cases fs with
    | file c => simp [viewAt, lookup, nview] at hroot
    | dir cs =>
      cases q' with
      | nil => exact ⟨_, by rw [insertAt]⟩
      | cons q2 qrest =>
        have hn := hanc [n] (List.cons_prefix_cons.mpr ⟨rfl, List.nil_prefix⟩) (by simp)
        rw [viewAt, lookup] at hn
        cases hf : findChild cs n with
        | none => rw [hf] at hn; simp [lookup] at hn
        | some c =>
          rw [hf] at hn
          have hanc' : ∀ p, p <+: (q2 :: qrest) → p ≠ (q2 :: qrest) →
              viewAt c p = some .vdir := by
            intro p hpre hne
            have := hanc (n :: p) (List.cons_prefix_cons.mpr ⟨rfl, hpre⟩)
              (fun hh => hne (by injection hh))
            rw [viewAt, lookup, hf] at this
            exact this
          obtain ⟨c2, hc2⟩ := ih c sub (by simp) hanc'
          refine ⟨FSTree.dir (setChild cs n c2), ?_⟩
          rw [insertAt, hf]
          dsimp only
          rw [hc2]
          rfl

theorem mvH_ok_inv (sh : Sh) (args : List Path) (sh3 : Sh) (hd : mvH sh args = .ok sh3) :
    ∃ a0 a1 sub fs2 finalDst,
      args = [a0, a1] ∧
      lookup sh.fs (sh.cwd ++ a0) = some sub ∧
      finalDst = (match lookup sh.fs (sh.cwd ++ a1) with
        | some (.dir _) => (sh.cwd ++ a1) ++ [pname (sh.cwd ++ a0)]
        | _ => sh.cwd ++ a1) ∧
      lookup sh.fs finalDst = none ∧
      fsRename sh.fs (sh.cwd ++ a0) finalDst = .ok fs2 ∧
      sh3 = { sh with fs := fs2, lastUndo := some (.mv finalDst (sh.cwd ++ a0)) } := by
  rcases args with _ | ⟨a0, _ | ⟨a1, _ | ⟨a2, rest⟩⟩⟩
  · simp [mvH] at hd
  · simp [mvH] at hd
  case cons.cons.cons => simp [mvH] at hd
  cases hsrc : lookup sh.fs (sh.cwd ++ a0) with
  | none => simp [mvH, hsrc] at hd
  | some sub =>
    rw [mvH] at hd
    rw [hsrc] at hd
    simp only [Option.isNone_some, Bool.false_eq_true, if_false] at hd
    cases hdst : lookup sh.fs (sh.cwd ++ a1) with
    | none =>
      rw [hdst] at hd
      dsimp only at hd
      cases hfd : lookup sh.fs (sh.cwd ++ a1) with
      | some t => rw [hfd] at hd; simp at hd
      | none =>
        rw [hfd] at hd
        simp only [Option.isSome_none, Bool.false_eq_true, if_false] at hd
        rw [fsMove, hfd] at hd
        cases hren : fsRename sh.fs (sh.cwd ++ a0) (sh.cwd ++ a1) with
        | error e => rw [hren] at hd; cases hd
        | ok fs2 =>
          rw [hren] at hd
          cases hd
          exact ⟨a0, a1, sub, fs2, sh.cwd ++ a1, rfl, hsrc, by rw [hdst], hfd, hren, rfl⟩
    | some t =>
      cases t with
      | file c =>
        rw [hdst] at hd
        dsimp only at hd
        cases hfd : lookup sh.fs (sh.cwd ++ a1) with
        | none => rw [hfd] at hdst; cases hdst
        | some t2 =>
          rw [hfd] at hdst
          cases hdst
          rw [hfd] at hd
          simp at hd
      | dir ds =>
        rw [hdst] at hd
        dsimp only at hd
        cases hfd : lookup sh.fs ((sh.cwd ++ a1) ++ [pname (sh.cwd ++ a0)]) with
        | some t2 => rw [hfd] at hd; simp at hd
        | none =>
          rw [hfd] at hd
          simp only [Option.isSome_none, Bool.false_eq_true, if_false] at hd
          rw [fsMove, hfd] at hd
          cases hren : fsRename sh.fs (sh.cwd ++ a0) ((sh.cwd ++ a1) ++ [pname (sh.cwd ++ a0)]) with
          | error e => rw [hren] at hd; cases hd
          | ok fs2 =>
            rw [hren] at hd
            cases hd
            exact ⟨a0, a1, sub, fs2, (sh.cwd ++ a1) ++ [pname (sh.cwd ++ a0)], rfl, hsrc,
              by rw [hdst], hfd, hren, rfl⟩

/-- The inverse move registered by a successful `mv` always succeeds and
restores the filesystem view at every path. -/
theorem rename_roundtrip (fs sub fs2 : FSTree) (src finalDst : Path)
    (hwf : wfb fs = true)
    (hsrcne : src ≠ [])
    (hsrc : lookup fs src = some sub)
    (hfd : lookup fs finalDst = none)
    (hren : fsRename fs src finalDst = .ok fs2) :
    ∃ fs3, fsMove fs2 finalDst src = .ok fs3 ∧ ∀ p, viewAt fs3 p = viewAt fs p := by
  rw [fsRename, hsrc] at hren
  dsimp only at hren
  cases hins : insertAt (erase fs src) finalDst sub with
  | none => rw [hins] at hren; cases hren
  | some fs2x =>
    rw [hins] at hren
    obtain rfl : fs2 = fs2x := by injection hren with h; exact h.symm
    have hwsub : wfb sub = true := wfb_lookup src fs sub hwf hsrc
    have hwerase : wfb (erase fs src) = true := wfb_erase src fs hwf
    have hwfs2 : wfb fs2 = true := wfb_insertAt finalDst _ sub fs2 hwerase hwsub hins
    have hfdne : finalDst ≠ [] := by
      intro h
      subst h
      rw [insertAt] at hins
      cases hins
    have hneq : src ≠ finalDst := by
      intro h
      rw [h, hfd] at hsrc
      cases hsrc
    have hnps : ¬(finalDst <+: src) := by
      rintro ⟨t, rfl⟩
      cases t with
      | nil => rw [List.append_nil] at hneq; exact hneq rfl
      | cons x r =>
        rw [lookup_append, hfd] at hsrc
        simp at hsrc
    have hnsp : ¬(src <+: finalDst) := by
      rintro ⟨t, rfl⟩
      cases t with
      | nil => rw [List.append_nil] at hneq; exact hneq rfl
      | cons x r =>
        have hvd := insertAt_ancestors (src ++ (x :: r)) _ sub fs2 hins src ⟨x :: r, rfl⟩
          (by intro hh; have hlen := congrArg List.length hh; simp at hlen)
        have hnone : lookup (erase fs src) src = none := by
          have := lookup_erase_self src fs [] hwf hsrcne
          rwa [List.append_nil] at this
        rw [viewAt, hnone] at hvd
        cases hvd
    have hsrc_gone : lookup fs2 src = none := by
      rw [lookup_insertAt_disjoint finalDst _ sub fs2 src hins hnps hnsp]
      have := lookup_erase_self src fs [] hwf hsrcne
      rwa [List.append_nil] at this
    have hfd_now : lookup fs2 finalDst = some sub := by
      have := lookup_insertAt_self finalDst _ sub fs2 [] hins
      rw [List.append_nil] at this
      rw [this, lookup]
    have hanc0 : ∀ p, p <+: src → p ≠ src → viewAt fs p = some .vdir := by
      rintro p ⟨t, rfl⟩ hne2
      cases t with
      | nil => rw [List.append_nil] at hne2; exact absurd rfl hne2
      | cons x r => exact viewAt_vdir_of_lookup fs p x r sub hsrc
    have hanc2 : ∀ p, p <+: src → p ≠ src → viewAt (erase fs2 finalDst) p = some .vdir := by
      intro p hp hne2
      have hp_ne_fd : p ≠ finalDst := by
        intro h
        subst h
        exact hnps hp
      have hfd_np : ¬(finalDst <+: p) := fun h => hnps (h.trans hp)
      by_cases hpfd : p <+: finalDst
      · rw [viewAt_erase_ancestor finalDst fs2 p hpfd hp_ne_fd,
          viewAt_insertAt_ancestor finalDst _ sub fs2 p hins hpfd hp_ne_fd,
          viewAt_erase_ancestor src fs p hp hne2]
        exact hanc0 p hp hne2
      · have e1 : lookup (erase fs2 finalDst) p = lookup fs2 p :=
          lookup_erase_disjoint finalDst fs2 p hfd_np hpfd
        have i2 : lookup fs2 p = lookup (erase fs src) p :=
          lookup_insertAt_disjoint finalDst _ sub fs2 p hins hfd_np hpfd
        have hchain : viewAt (erase fs2 finalDst) p = viewAt (erase fs src) p := by
          rw [viewAt, viewAt, e1, i2]
        rw [hchain, viewAt_erase_ancestor src fs p hp hne2]
        exact hanc0 p hp hne2
    obtain ⟨fs3, hins3⟩ := insertAt_some_of_ancestors src (erase fs2 finalDst) sub hsrcne hanc2
    refine ⟨fs3, ?_, ?_⟩
    · rw [fsMove, hsrc_gone]
      dsimp only
      rw [fsRename, hfd_now]
      dsimp only
      rw [hins3]
    · intro p
      by_cases hsp : src <+: p
      · obtain ⟨r, rfl⟩ := hsp
        rw [viewAt, viewAt, lookup_insertAt_self src _ sub fs3 r hins3, lookup_append, hsrc]
        rfl
      · by_cases hfdp : finalDst <+: p
        · obtain ⟨r, rfl⟩ := hfdp
          have i2 : lookup fs3 (finalDst ++ r) = lookup (erase fs2 finalDst) (finalDst ++ r) :=
            lookup_insertAt_disjoint src _ sub fs3 _ hins3 hsp
              (fun h => hnps (List.IsPrefix.trans (List.prefix_append finalDst r) h))
          have e2 : lookup (erase fs2 finalDst) (finalDst ++ r) = none :=
            lookup_erase_self finalDst fs2 r hwfs2 hfdne
          rw [viewAt, viewAt, i2, e2, lookup_append, hfd]
          rfl
        · by_cases hps : p <+: src
          · have hpnesrc : p ≠ src := fun h => hsp (by rw [h])
            rw [viewAt_insertAt_ancestor src _ sub fs3 p hins3 hps hpnesrc]
            rw [hanc2 p hps hpnesrc, hanc0 p hps hpnesrc]
          · by_cases hpfd : p <+: finalDst
            · have hpnefd : p ≠ finalDst := fun h => hfdp (by rw [h])
              have i2 : lookup fs3 p = lookup (erase fs2 finalDst) p :=
                lookup_insertAt_disjoint src _ sub fs3 p hins3 hsp hps
              have e3 : viewAt (erase fs2 finalDst) p = viewAt fs2 p :=
                viewAt_erase_ancestor finalDst fs2 p hpfd hpnefd
              have i3 : viewAt fs2 p = viewAt (erase fs src) p :=
                viewAt_insertAt_ancestor finalDst _ sub fs2 p hins hpfd hpnefd
              have e1 : lookup (erase fs src) p = lookup fs p :=
                lookup_erase_disjoint src fs p hsp hps
              have l1 : viewAt fs3 p = viewAt (erase fs2 finalDst) p := by
                rw [viewAt, viewAt, i2]
              rw [l1, e3, i3, viewAt, viewAt, e1]
            · have i2 : lookup fs3 p = lookup (erase fs2 finalDst) p :=
                lookup_insertAt_disjoint src _ sub fs3 p hins3 hsp hps
              have e1 : lookup (erase fs2 finalDst) p = lookup fs2 p :=
                lookup_erase_disjoint finalDst fs2 p hfdp hpfd
              have i2b : lookup fs2 p = lookup (erase fs src) p :=
                lookup_insertAt_disjoint finalDst _ sub fs2 p hins hfdp hpfd
              have e1b : lookup (erase fs src) p = lookup fs p :=
                lookup_erase_disjoint src fs p hsp hps
              rw [viewAt, viewAt, i2, e1, i2b, e1b]

/-- A successful `undo` step when the registered inverse is a move that
succeeds on the current filesystem. -/
theorem step_undo_ok (shA : Sh) (a b : Path) (f3 : FSTree) (raw2 : String) (ans2 : List String)
    (hlu : shA.lastUndo = some (.mv a b))
    (hm : fsMove shA.fs a b = .ok f3) :
    step shA Cmd.undo raw2 ans2 =
      .ok (commit { shA with fs := f3, hist := shA.hist.dropLast, lastUndo := none } raw2) := by
  simp [step, dispatch, undoH, hlu, runUndo, hm]

/-- **C8** — For every successful relocate of `src` to `dst` (including
the case where `dst` is a directory and the move lands at
`dst/<basename of src>`), an immediately following revert succeeds,
restores the original source path and removes the created destination:
the filesystem view at every path returns to what it was before the
relocate.  (`wfb` states no directory has duplicate child names — true of
any real filesystem; operands are non-empty paths as produced by the
tokenizer.) -/
theorem mv_then_revert_roundtrip (sh : Sh) (args : List Path) (raw raw2 : String)
    (ans ans2 : List String) (sh1 : Sh)
    (hwf : wfb sh.fs = true)
    (hne : ∀ a ∈ args, a ≠ ([] : Path))
    (hmv : step sh (Cmd.mv args) raw ans = .ok sh1) :
    ∃ sh2, step sh1 Cmd.undo raw2 ans2 = .ok sh2 ∧
      ∀ p : Path, viewAt sh2.fs p = viewAt sh.fs p := by
  rcases step_cases sh (Cmd.mv args) raw ans with ⟨hc, _⟩ | ⟨sh3, hd, hstep⟩ | ⟨sh3, e, hd, hstep⟩
  · exact Cmd.noConfusion hc
  · rw [hstep] at hmv
    obtain rfl : commit sh3 raw = sh1 := by injection hmv
    simp only [dispatch] at hd
    obtain ⟨a0, a1, sub, fs2, finalDst, rfl, hsrc, hfdeq, hfd, hren, rfl⟩ :=
      mvH_ok_inv sh args sh3 hd
    have ha0 : a0 ≠ [] := hne a0 (by simp)
    have hsrcne : sh.cwd ++ a0 ≠ [] := by
      intro h
      exact ha0 (List.append_eq_nil.mp h).2
    obtain ⟨fs3, hmove, hview⟩ :=
      rename_roundtrip sh.fs sub fs2 (sh.cwd ++ a0) finalDst hwf hsrcne hsrc hfd hren
    refine ⟨_, step_undo_ok _ finalDst (sh.cwd ++ a0) fs3 raw2 ans2 rfl hmove, ?_⟩
    intro p
    exact hview p
  · rw [hstep] at hmv
    cases hmv

/-- A filesystem with `/tmp/a` (a file) and `/tmp/d` (a directory). -/
def c8Sh : Sh :=
  ⟨["tmp"], ["home"], ["trash"],
    .dir [("tmp", .dir [("a", .file (some "s")), ("d", .dir [])]), ("trash", .dir [])],
    [], none, 0, none⟩

/-- The state after `mv a d` in `c8Sh` (the move lands at `/tmp/d/a`). -/
def c8Sh1 : Sh :=
  ⟨["tmp"], ["home"], ["trash"],
    .dir [("tmp", .dir [("d", .dir [("a", .file (some "s"))])]), ("trash", .dir [])],
    [histLine 1 "mv a d"], some 1, 1, some (.mv ["tmp", "d", "a"] ["tmp", "a"])⟩

/-- Witness for `mv_then_revert_roundtrip` at a concrete move into a
directory. -/
theorem mv_then_revert_roundtrip_witness :
    ∃ sh2, step c8Sh1 Cmd.undo "undo" [] = .ok sh2 ∧
      ∀ p : Path, viewAt sh2.fs p = viewAt c8Sh.fs p :=
  mv_then_revert_roundtrip c8Sh [["a"], ["d"]] "mv a d" "undo" [] [] c8Sh1
    (by simp [c8Sh, wfb, wfbL, namesNodupB]) (by decide) rfl

end MiniShell
